import Mathlib

/-!
Verification development for the plan-ledger and edit-block engine of the
researcher-zero repository.

Text is modelled as `List Char` (Python `str` is a sequence of code points).
Python functions from `core/skills/plan/scripts/plan_tool.py`,
`core/services/learn/plan.py`, `core/skills/file_manage/scripts/edit_blocks.py`
and `core/skills/file_manage/scripts/editor.py` are embedded as executable
Lean definitions keeping the source names.  Python exceptions become
`Except PyErr`; the regular expressions of the source, which are fixed
literal patterns, are embedded by their matching semantics on ASCII-relevant
inputs (`\d` is modelled as the ASCII digits; Python also accepts other
Unicode decimal digits there, which no claim exercises, and `!r` repr
escaping inside error messages is modelled as plain quoting).
-/

deriving instance DecidableEq for Except

namespace RZ

/-- Python exception values, tagged by the exception class raised. -/
inductive PyErr where
  | valueError (msg : List Char)
  | matchError (msg : List Char)
  | parseError (msg : List Char)
  | runtimeError (msg : List Char)
  | indexError (msg : List Char)
deriving DecidableEq, Repr

/-- Characters of a string literal. -/
def lc (s : String) : List Char := s.toList

/-- Python `str.isspace` / default `str.strip` character class
(`Py_UNICODE_ISSPACE`): ASCII whitespace, the information separators
0x1c-0x1f, NEL, NBSP and the Unicode space separators. -/
def pyIsSpace (c : Char) : Bool :=
  let n := c.toNat
  n == 0x20 || (0x9 ≤ n && n ≤ 0xd) || (0x1c ≤ n && n ≤ 0x1f) || n == 0x85 ||
  n == 0xa0 || n == 0x1680 || (0x2000 ≤ n && n ≤ 0x200a) || n == 0x2028 ||
  n == 0x2029 || n == 0x202f || n == 0x205f || n == 0x3000

/-- Line-boundary characters of Python `str.splitlines`. -/
def isLineBreak (c : Char) : Bool :=
  let n := c.toNat
  n == 0xa || n == 0xd || n == 0xb || n == 0xc || n == 0x1c || n == 0x1d ||
  n == 0x1e || n == 0x85 || n == 0x2028 || n == 0x2029

/-- Python `str.lstrip()`. -/
def pyLStrip (l : List Char) : List Char := l.dropWhile pyIsSpace

/-- Python `str.rstrip()`. -/
def pyRStrip (l : List Char) : List Char := (l.reverse.dropWhile pyIsSpace).reverse

/-- Python `str.strip()`. -/
def pyStrip (l : List Char) : List Char := pyRStrip (pyLStrip l)

/-- Split a text at the first occurrence of `pat`, returning the part
before and the part after it; `none` when `pat` does not occur.  This is
the semantics of `str.find` / leftmost regex literal search. -/
def splitFirst (pat : List Char) : List Char → Option (List Char × List Char)
  | [] => if pat.isPrefixOf ([] : List Char) then some ([], []) else none
  | c :: rest =>
    if pat.isPrefixOf (c :: rest) then some ([], (c :: rest).drop pat.length)
    else (splitFirst pat rest).map (fun p => (c :: p.1, p.2))

/-- Worker for Python `str.splitlines`: `keepends` keeps the terminators,
`\r\n` counts as a single boundary.  The explicit fuel (one unit per
consumed character) keeps the recursion structural; callers pass the text
length, which makes the fuel-exhaustion clause unreachable. -/
def pySplitlinesGo (keepends : Bool) : Nat → List Char → List Char → List (List Char)
  | _, [], acc => if acc.isEmpty then [] else [acc.reverse]
  | 0, _ :: _, _ => []
  | fuel + 1, c :: rest, acc =>
    if c = '\r' ∧ rest.head? = some '\n' then
      (acc.reverse ++ if keepends then ['\r', '\n'] else []) ::
        pySplitlinesGo keepends fuel rest.tail []
    else if isLineBreak c then
      (acc.reverse ++ if keepends then [c] else []) :: pySplitlinesGo keepends fuel rest []
    else pySplitlinesGo keepends fuel rest (c :: acc)

/-- Python `str.splitlines()`. -/
def pySplitlines (l : List Char) : List (List Char) := pySplitlinesGo false l.length l []

/-- Python `str.splitlines(keepends=True)`. -/
def pySplitlinesKeep (l : List Char) : List (List Char) := pySplitlinesGo true l.length l []

/-- The ASCII character of one decimal digit. -/
def digitChar (d : Nat) : Char :=
  if d = 0 then '0' else if d = 1 then '1' else if d = 2 then '2' else if d = 3 then '3'
  else if d = 4 then '4' else if d = 5 then '5' else if d = 6 then '6' else if d = 7 then '7'
  else if d = 8 then '8' else '9'

/-- Worker for the decimal digits of a natural number, most significant
first; structural on a fuel that callers set above the digit count. -/
def natDigitsAux : Nat → Nat → List Char
  | 0, _ => []
  | fuel + 1, n =>
    if n < 10 then [digitChar n] else natDigitsAux fuel (n / 10) ++ [digitChar (n % 10)]

/-- Decimal digits of a natural number, most significant first
(Python `str(n)` for `n ≥ 0`). -/
def natDigits (n : Nat) : List Char := natDigitsAux (n + 1) n

/-- Python `str(i)` for an `int`. -/
def intDigits (i : Int) : List Char :=
  if i < 0 then '-' :: natDigits (-i).toNat else natDigits i.toNat

/-- Numeric value of a digit string (Python `int(s)` on a matched `\d+`). -/
def digitsVal (l : List Char) : Nat :=
  l.foldl (fun a c => 10 * a + (c.toNat - 48)) 0

/-! ## core/skills/plan/scripts/plan_tool.py -/

/-- One plan item as carried around by `plan_tool.py`
(a dict with `status` and `title` keys). -/
structure PlanItem0 where
  status : List Char
  title : List Char
deriving DecidableEq, Repr

/-- `VALID_STATUS`, the four legal statuses. -/
def VALID_STATUS : List (List Char) := [lc "todo", lc "doing", lc "done", lc "aborted"]

/-- Stage of `ITEM_RE.fullmatch` after the id digits: the closing `] ` and
the `(.+)` title group (non-empty, no newline, up to end of line). -/
def matchTitlePart (rest4 : List Char) : Option (List Char) :=
  if (lc "] ").isPrefixOf rest4 then
    if rest4.drop 2 ≠ [] ∧ (rest4.drop 2).all (· ≠ '\n') then some (rest4.drop 2) else none
  else none

/-- Stage of `ITEM_RE.fullmatch` after `][`: the greedy `(\d+)` group and
the rest. -/
def matchIdPart (rest3 : List Char) : Option (List Char × List Char) :=
  if rest3.takeWhile Char.isDigit ≠ [] then
    (matchTitlePart (rest3.drop (rest3.takeWhile Char.isDigit).length)).map
      (fun t => (rest3.takeWhile Char.isDigit, t))
  else none

/-- Stage of `ITEM_RE.fullmatch` after `- [`: the status alternation (the
characters up to the first `]` must be one of the four statuses, none of
which contains `]`), then `][` and the id stage. -/
def matchStatusPart (rest1 : List Char) : Option (List Char × List Char × List Char) :=
  if rest1.takeWhile (· ≠ ']') ∈ VALID_STATUS then
    if (lc "][").isPrefixOf (rest1.drop (rest1.takeWhile (· ≠ ']')).length) then
      (matchIdPart ((rest1.drop (rest1.takeWhile (· ≠ ']')).length).drop 2)).map
        (fun p => (rest1.takeWhile (· ≠ ']'), p.1, p.2))
    else none
  else none

/-- `ITEM_RE.fullmatch` on one already-stripped line: the pattern
`- \[(todo|doing|done|aborted)\]\[(\d+)\] (.+)` anchored on both sides.
Returns the status, id-digit and title capture groups. -/
def matchItemLine (line : List Char) : Option (List Char × List Char × List Char) :=
  if (lc "- [").isPrefixOf line then matchStatusPart (line.drop 3) else none

/-- Error text for a body line that does not match `ITEM_RE`. -/
def invalidLineMsg (raw : List Char) : List Char :=
  lc "Invalid plan line: '" ++ raw ++ lc "'. Expected '- [status][id] <text>'."

/-- Error text for a non-sequential plan id. -/
def idSeqMsg (expected got : Nat) : List Char :=
  lc "Invalid plan id sequence: expected " ++ natDigits expected ++ lc ", got " ++
    natDigits got ++ lc "."

/-- Body loop of `parse_plan`: strip each raw line, skip blank lines, match
`ITEM_RE`, check the dense id sequence and the non-empty title. -/
def parsePlanLines : List (List Char) → Nat → Except PyErr (List PlanItem0)
  | [], _ => .ok []
  | raw :: rest, expected =>
    if pyStrip raw = [] then parsePlanLines rest expected
    else
      match matchItemLine (pyStrip raw) with
      | none => .error (.valueError (invalidLineMsg raw))
      | some (st, ds, t) =>
        if digitsVal ds ≠ expected then .error (.valueError (idSeqMsg expected (digitsVal ds)))
        else if pyStrip t = [] then .error (.valueError (lc "Plan item title cannot be empty."))
        else (parsePlanLines rest (expected + 1)).map (⟨st, pyStrip t⟩ :: ·)

/-- `parse_plan`: `PLAN_RE = <PLAN>\s*(.*?)\s*</PLAN>` with `re.DOTALL`
searches for the first `<PLAN>` and the non-greedy group stops at the first
following `</PLAN>`; the group with its `\s*` borders stripped is exactly
`pyStrip` of the text between the two markers. -/
def parse_plan (text : List Char) : Except PyErr (List PlanItem0) :=
  match splitFirst (lc "<PLAN>") text with
  | none => .error (.valueError (lc "Missing <PLAN>...</PLAN> block."))
  | some (_, afterOpen) =>
    match splitFirst (lc "</PLAN>") afterOpen with
    | none => .error (.valueError (lc "Missing <PLAN>...</PLAN> block."))
    | some (between, _) =>
      if pyStrip between = [] then .ok []
      else parsePlanLines (pySplitlines (pyStrip between)) 1

/-- One rendered ledger line `- [status][idx] title` (title stripped). -/
def renderLine (idx : Nat) (it : PlanItem0) : List Char :=
  lc "- [" ++ it.status ++ lc "][" ++ natDigits idx ++ lc "] " ++ pyStrip it.title

/-- Body loop of `render_plan_block`: validate each item and render its
line, ids reindexed from `idx`. -/
def renderLinesGo (idx : Nat) : List PlanItem0 → Except PyErr (List (List Char))
  | [] => .ok []
  | it :: rest =>
    if it.status ∉ VALID_STATUS then
      .error (.valueError (lc "Invalid status: '" ++ it.status ++ lc "'."))
    else if pyStrip it.title = [] then
      .error (.valueError (lc "Plan item title cannot be empty."))
    else (renderLinesGo (idx + 1) rest).map (renderLine idx it :: ·)

/-- Python `"\n".join(lines)`. -/
def joinNl : List (List Char) → List Char
  | [] => []
  | [l] => l
  | l :: ls => l ++ '\n' :: joinNl ls

/-- `render_plan_block`: canonical `<PLAN>` block, ids always reindexed
from 1. -/
def render_plan_block (items : List PlanItem0) : Except PyErr (List Char) :=
  if items = [] then .ok (lc "<PLAN>\n</PLAN>")
  else
    (renderLinesGo 1 items).map fun lines =>
      lc "<PLAN>\n" ++ joinNl lines ++ lc "\n</PLAN>"

/-- One entry of the JSON `--items-json` payload after `json.loads`: an
object whose optional `id` is an integer and whose `status`/`title`, when
present, are strings.  (Payload entries of other JSON shapes only reach
the validation errors of `_parse_items_json`, which no claim exercises.) -/
structure RawItem where
  id : Option Int
  status : Option (List Char)
  title : Option (List Char)
deriving DecidableEq, Repr

/-- One validated upsert entry produced by `_parse_items_json`. -/
structure NormItem where
  status : List Char
  title : List Char
  id : Option Int
deriving DecidableEq, Repr

/-- Error text of `_parse_items_json` for a bad status. -/
def itemsStatusMsg (idx : Nat) : List Char :=
  lc "--items-json[" ++ natDigits idx ++ lc "].status must be one of ['aborted', 'doing', 'done', 'todo']."

/-- Error text of `_parse_items_json` for a bad title. -/
def itemsTitleMsg (idx : Nat) : List Char :=
  lc "--items-json[" ++ natDigits idx ++ lc "].title must be a non-empty string."

/-- Error text of `_parse_items_json` for a non-positive id. -/
def itemsIdMsg (idx : Nat) : List Char :=
  lc "--items-json[" ++ natDigits idx ++ lc "].id must be a positive integer."

/-- Error text of `_parse_items_json` for a duplicate id. -/
def dupIdMsg (i : Int) : List Char :=
  lc "Duplicate upsert id in payload: " ++ intDigits i ++ lc "."

/-- Validation loop of `_parse_items_json` over the decoded payload:
status must be one of `VALID_STATUS`, title a non-blank string, a present
id a positive integer not seen before in this call. -/
def parseItemsGo (idx : Nat) (seen : List Int) : List RawItem → Except PyErr (List NormItem)
  | [] => .ok []
  | raw :: rest =>
    match raw.status with
    | none => .error (.valueError (itemsStatusMsg idx))
    | some st =>
      if st ∉ VALID_STATUS then .error (.valueError (itemsStatusMsg idx))
      else
        match raw.title with
        | none => .error (.valueError (itemsTitleMsg idx))
        | some t =>
          if pyStrip t = [] then .error (.valueError (itemsTitleMsg idx))
          else
            match raw.id with
            | none => (parseItemsGo (idx + 1) seen rest).map (⟨st, pyStrip t, none⟩ :: ·)
            | some i =>
              if i ≤ 0 then .error (.valueError (itemsIdMsg idx))
              else if i ∈ seen then .error (.valueError (dupIdMsg i))
              else (parseItemsGo (idx + 1) (i :: seen) rest).map (⟨st, pyStrip t, some i⟩ :: ·)

/-- `_parse_items_json` on the decoded payload: a non-empty array of
validated entries. -/
def parse_items_json (payload : List RawItem) : Except PyErr (List NormItem) :=
  if payload = [] then .error (.valueError (lc "--items-json must be a non-empty JSON array."))
  else parseItemsGo 1 [] payload

/-- Error text of `upsert_items` for an out-of-range target id. -/
def upsertRangeMsg (t : Int) (m : Nat) : List Char :=
  lc "Upsert target id out of range: " ++ intDigits t ++ lc ". Current max id is " ++
    natDigits m ++ lc "."

/-- Python index resolution: a negative index counts from the end. -/
def pyIdx (n : Nat) (i : Int) : Int := if i < 0 then i + n else i

/-- Python list assignment `l[i] = a` including negative-index wrapping. -/
def pySetIdx (l : List α) (i : Int) (a : α) : Except PyErr (List α) :=
  if 0 ≤ pyIdx l.length i ∧ pyIdx l.length i < l.length then
    .ok (l.set (pyIdx l.length i).toNat a)
  else .error (.indexError (lc "list assignment index out of range"))

/-- Update loop of `upsert_items`: a missing id appends, a present id
≤ the current length overwrites `result[id-1]`, a larger id is an error. -/
def upsertGo : List PlanItem0 → List NormItem → Except PyErr (List PlanItem0)
  | result, [] => .ok result
  | result, u :: rest =>
    match u.id with
    | none => upsertGo (result ++ [⟨u.status, u.title⟩]) rest
    | some target =>
      if target > (result.length : Int) then .error (.valueError (upsertRangeMsg target result.length))
      else
        match pySetIdx result (target - 1) ⟨u.status, u.title⟩ with
        | .ok r => upsertGo r rest
        | .error e => .error e

/-- `upsert_items`: copy the plan, then apply each update in order. -/
def upsert_items (plan : List PlanItem0) (updates : List NormItem) : Except PyErr (List PlanItem0) :=
  upsertGo (plan.map fun it => ⟨it.status, it.title⟩) updates

/-- Split a text on every comma (Python `str.split(",")`). -/
def splitComma : List Char → List (List Char)
  | [] => [[]]
  | ',' :: rest => [] :: splitComma rest
  | c :: rest =>
    match splitComma rest with
    | p :: ps => (c :: p) :: ps
    | [] => [[c]]

/-- Id loop of `_parse_remove_ids`: all-digit, not the literal `0`, no
duplicates. -/
def parseRemoveIdsGo (seen : List Nat) : List (List Char) → Except PyErr (List Nat)
  | [] => .ok []
  | raw :: rest =>
    if ¬ (raw.all Char.isDigit) ∨ raw = lc "0" then
      .error (.valueError (lc "Invalid id in --ids: '" ++ raw ++ lc "'."))
    else
      let value := digitsVal raw
      if value ∈ seen then .error (.valueError (lc "Duplicate id in --ids: " ++ natDigits value ++ lc "."))
      else (parseRemoveIdsGo (value :: seen) rest).map (value :: ·)

/-- `_parse_remove_ids`: comma-separated ids, stripped, blanks dropped. -/
def parse_remove_ids (csv : List Char) : Except PyErr (List Nat) :=
  let rawParts := (splitComma csv).map pyStrip
  let parts := rawParts.filter (· ≠ [])
  if parts = [] then .error (.valueError (lc "--ids must contain at least one id."))
  else parseRemoveIdsGo [] parts

/-- Error text of `remove_items` for an out-of-range id. -/
def removeRangeMsg (v m : Nat) : List Char :=
  lc "Remove id out of range: " ++ natDigits v ++ lc ". Current max id is " ++ natDigits m ++ lc "."

/-- Python `del l[i]` including negative-index wrapping. -/
def pyDelIdx (l : List α) (i : Int) : Except PyErr (List α) :=
  if 0 ≤ pyIdx l.length i ∧ pyIdx l.length i < l.length then
    .ok (l.eraseIdx (pyIdx l.length i).toNat)
  else .error (.indexError (lc "list assignment index out of range"))

/-- Insert into a descending-sorted list (stable). -/
def sortDescInsert (x : Nat) : List Nat → List Nat
  | [] => [x]
  | y :: rest => if x ≥ y then x :: y :: rest else y :: sortDescInsert x rest

/-- Python `sorted(ids, reverse=True)`. -/
def sortDesc (l : List Nat) : List Nat := l.foldr sortDescInsert []

/-- Deletion loop of `remove_items` over the descending-sorted ids. -/
def removeGo : List PlanItem0 → List Nat → Except PyErr (List PlanItem0)
  | result, [] => .ok result
  | result, v :: rest =>
    match pyDelIdx result ((v : Int) - 1) with
    | .ok r => removeGo r rest
    | .error e => .error e

/-- `remove_items`: validate every id against the pre-mutation length,
then delete highest-to-lowest. -/
def remove_items (plan : List PlanItem0) (ids : List Nat) : Except PyErr (List PlanItem0) :=
  let result := plan.map fun it => (⟨it.status, it.title⟩ : PlanItem0)
  let maxId := result.length
  match ids.find? (fun v => decide (v > maxId)) with
  | some v => .error (.valueError (removeRangeMsg v maxId))
  | none => removeGo result (sortDesc ids)

/-- A mutation operation of `mutate_plan_file` with its payload: the
upsert payload is the decoded `--items-json` array, the remove payload the
raw `--ids` string.  (The mutually-exclusive-flags checks of the source
concern only the CLI plumbing and are implied by this sum type.) -/
inductive MutOp where
  | upsert (payload : List RawItem)
  | remove (idsCsv : List Char)

/-- Default content used by `mutate_plan_file` when the plan file does not
exist. -/
def EMPTY_PLAN_FILE : List Char := lc "<PLAN>\n</PLAN>\n"

/-- `mutate_plan_file` over the plan file's current content (`none` when
the file does not exist): parse, apply the operation, render, and return
`(new file content, returned plan text)`; the file is only written on
success, with a trailing newline appended. -/
def mutate_plan_file (file : Option (List Char)) (op : MutOp) : Except PyErr (List Char × List Char) := do
  let original := file.getD EMPTY_PLAN_FILE
  let current ← parse_plan original
  let next ←
    match op with
    | .upsert payload => do upsert_items current (← parse_items_json payload)
    | .remove csv => do remove_items current (← parse_remove_ids csv)
  let output ← render_plan_block next
  .ok (output ++ lc "\n", output)

/-! ## core/services/learn/plan.py

`plan.py` duplicates the ledger parser of `plan_tool.py` verbatim
(`PLAN_RE`/`PLAN_LINE_RE` are the same literal patterns and the loop bodies
are line-for-line identical); its `parse_plan_items` differs only in
attaching the positional id to each parsed item, so it is embedded as
`parse_plan` followed by that id-attachment. -/

/-- One plan item of `core/services/learn/state.py` (`PlanItem`). -/
structure PlanItem where
  id : Nat
  title : List Char
  status : List Char
deriving DecidableEq, Repr

/-- `parse_plan_items` on plan text (the `from_file` variant reads the same
text from disk first). -/
def parse_plan_items (text : List Char) : Except PyErr (List PlanItem) :=
  (parse_plan text).map fun items => items.enum.map fun p => ⟨p.1 + 1, p.2.title, p.2.status⟩

/-- `STATUS_TRANSITIONS`: the runtime-owned legal-edge table.  `done` and
`aborted` map to the empty set; looking up a key outside the four statuses
would be a `KeyError` in Python but is unreachable because every caller
passes a status produced by `parse_plan_items`. -/
def STATUS_TRANSITIONS (s : List Char) : List (List Char) :=
  if s = lc "todo" then [lc "doing"]
  else if s = lc "doing" then [lc "done", lc "aborted"]
  else []

/-- `_find_item`: positive id, at most the item count, then positional
lookup. -/
def find_item (items : List PlanItem) (item_id : Int) : Except PyErr PlanItem :=
  if item_id ≤ 0 then
    .error (.valueError (lc "item_id must be positive, got " ++ intDigits item_id ++ lc "."))
  else if item_id > items.length then
    .error (.valueError (lc "item_id out of range: " ++ intDigits item_id ++
      lc ". Current max id is " ++ natDigits items.length ++ lc "."))
  else
    match items.get? (item_id.toNat - 1) with
    | some it => .ok it
    | none => .error (.indexError (lc "list index out of range"))

/-- Error text of `transition_plan_item_status` for an illegal edge. -/
def transitionMsg (item_id : Int) (cur toSt : List Char) : List Char :=
  lc "Invalid status transition for id=" ++ intDigits item_id ++ lc ": " ++ cur ++
    lc " -> " ++ toSt ++ lc "."

/-- `transition_plan_item_status` over the plan file's content: parse,
locate the item, check the edge against `STATUS_TRANSITIONS`, mutate via
`mutate_plan_file` (an upsert of the same id and title with the new
status), re-parse the returned text and verify the persisted status.
Returns the updated items and the new file content. -/
def transition_plan_item_status (plan_file : List Char) (item_id : Int)
    (to_status : List Char) : Except PyErr (List PlanItem × List Char) := do
  let current_items ← parse_plan_items plan_file
  let current_item ← find_item current_items item_id
  if to_status ∉ STATUS_TRANSITIONS current_item.status then
    .error (.valueError (transitionMsg item_id current_item.status to_status))
  else do
    let payload : List RawItem := [⟨some item_id, some to_status, some current_item.title⟩]
    let (newFile, output) ← mutate_plan_file (some plan_file) (.upsert payload)
    let updated ← parse_plan_items output
    match updated.get? (item_id.toNat - 1) with
    | none => .error (.indexError (lc "list index out of range"))
    | some it =>
      if it.status ≠ to_status then
        .error (.runtimeError (lc "Failed to persist plan status transition id=" ++
          intDigits item_id ++ lc " -> " ++ to_status ++ lc "."))
      else .ok (updated, newFile)

/-- The id-attachment performed by `parse_plan_items` on the parsed
`(status, title)` pairs: positional ids counted from 1. -/
def attachIds (items : List PlanItem0) : List PlanItem :=
  items.enum.map fun p => ⟨p.1 + 1, p.2.title, p.2.status⟩

/-- The legal status edges as the specification words them: `todo→doing`,
`doing→done`, `doing→aborted` (spec-modelled, to be compared with the
code's `STATUS_TRANSITIONS` table). -/
def specLegalEdge (cur toSt : List Char) : Prop :=
  (cur = lc "todo" ∧ toSt = lc "doing") ∨
  (cur = lc "doing" ∧ toSt = lc "done") ∨
  (cur = lc "doing" ∧ toSt = lc "aborted")

instance (cur toSt : List Char) : Decidable (specLegalEdge cur toSt) := by
  unfold specLegalEdge
  infer_instance

/-! ## core/skills/file_manage/scripts/edit_blocks.py

The fence argument is always the default `("` ++ "``" ++ "`" ++ `", ...)`
pair in this repository, so it is inlined as the literal `fenceMark`.
Python `re`'s `\s` class coincides with `pyIsSpace` on every character
(verified against CPython), so the whitespace run of `_split_by_dots`
reuses it. -/

/-- The backquote character (written by code to keep it out of string
literals). -/
def charBq : Char := Char.ofNat 96

/-- The default fence marker (three backquotes). -/
def fenceMark : List Char := [charBq, charBq, charBq]

/-- `_ensure_final_newline`. -/
def ensure_final_newline (text : List Char) : List Char :=
  if text ≠ [] ∧ text.getLast? ≠ some '\n' then text ++ ['\n'] else text

/-- Split a text on every slash (for `pathlib` name extraction). -/
def splitSlash : List Char → List (List Char)
  | [] => [[]]
  | '/' :: rest => [] :: splitSlash rest
  | c :: rest =>
    match splitSlash rest with
    | p :: ps => (c :: p) :: ps
    | [] => [[c]]

/-- `pathlib.Path(p).name`: the last path segment, with empty and `.`
segments dropped (`..` is kept, as in `pathlib`). -/
def pathName (p : List Char) : List Char :=
  (((splitSlash p).filter fun s => decide (¬ (s = [] ∨ s = lc "."))).getLastD [])

/-- The filename-echo step of `_strip_wrapping`. -/
def stripEchoLine (lines : List (List Char)) (path : Option (List Char)) :
    List (List Char) :=
  match path with
  | none => lines
  | some p =>
    if lines ≠ [] ∧ p ≠ [] ∧ pathName p <:+ pyStrip (lines.headD []) then lines.drop 1
    else lines

/-- The fence-pair step of `_strip_wrapping`. -/
def stripFencePair (lines : List (List Char)) : List (List Char) :=
  if 2 ≤ lines.length ∧ fenceMark <+: lines.headD [] ∧ fenceMark <+: lines.getLastD [] then
    (lines.drop 1).dropLast
  else lines

/-- `_strip_wrapping`: drop a leading filename-echo line and a wrapping
fence pair, then rejoin with a guaranteed trailing newline. -/
def strip_wrapping (text : List Char) (path : Option (List Char)) : List Char :=
  if text = [] then []
  else
    ensure_final_newline (joinNl (stripFencePair (stripEchoLine (pySplitlines text) path)))

/-- `"".join` over keepends lines. -/
def joinAll : List (List Char) → List Char
  | [] => []
  | l :: ls => l ++ joinAll ls

/-- Scan of `_exact_replace`: find the first window of lines equal to
`needle` and splice `repl` in; `acc` holds the lines already passed, in
reverse. -/
def exactGo (needle repl : List (List Char)) (acc : List (List Char)) :
    List (List Char) → Option (List Char)
  | [] => none
  | l :: rest =>
    if (l :: rest).take needle.length = needle then
      some (joinAll (acc.reverse ++ repl ++ (l :: rest).drop needle.length))
    else exactGo needle repl (l :: acc) rest

/-- `_exact_replace` (`None` when the search lines are empty or no window
matches). -/
def exact_replace (whole search repl : List (List Char)) : Option (List Char) :=
  if search = [] then none else exactGo search repl [] whole

/-- The leading-whitespace count of a line (`len(l) - len(l.lstrip())`). -/
def wsCount (l : List Char) : Nat := l.length - (pyLStrip l).length

/-- Python `l[:k]` for a possibly negative `k`. -/
def pyTakeTo (l : List Char) (k : Int) : List Char :=
  if k < 0 then l.take (l.length - (-k).toNat) else l.take k.toNat

/-- The `line[outdent:] if line.strip() else line` map of
`_indent_flexible_replace`. -/
def outdentLines (n : Nat) (lines : List (List Char)) : List (List Char) :=
  lines.map fun line => if pyStrip line ≠ [] then line.drop n else line

/-- The candidate indentation prefixes of one window (only non-blank
window lines contribute). -/
def windowPrefixes (window search : List (List Char)) : List (List Char) :=
  ((window.zip search).filter fun p => decide (pyStrip p.1 ≠ [])).map fun p =>
    pyTakeTo p.1 ((p.1.length : Int) - p.2.length)

/-- Per-line left-strip equality of one window against the search lines. -/
def lstripMatches (window search : List (List Char)) : Bool :=
  (window.zip search).all fun p => decide (pyLStrip p.1 = pyLStrip p.2)

/-- The `prefix + line if line.strip() else line` re-indent of the
replace lines. -/
def reindentLines (pre : List Char) (lines : List (List Char)) : List (List Char) :=
  lines.map fun line => if pyStrip line ≠ [] then pre ++ line else line

/-- Scan of `_indent_flexible_replace` (with already-outdented search and
replace lines): find the first window whose lines match after per-line
left-strip and whose non-blank lines share one indentation prefix, then
splice the re-indented replace lines in. -/
def indentGo (needle repl : List (List Char)) (acc : List (List Char)) :
    List (List Char) → Option (List Char)
  | [] => none
  | l :: rest =>
    if needle.length ≤ (l :: rest).length ∧
        lstripMatches ((l :: rest).take needle.length) needle = true ∧
        ((windowPrefixes ((l :: rest).take needle.length) needle).eraseDups).length = 1 then
      some (joinAll (acc.reverse ++
        reindentLines (((windowPrefixes ((l :: rest).take needle.length) needle).eraseDups).headD []) repl ++
        (l :: rest).drop needle.length))
    else indentGo needle repl (l :: acc) rest

/-- The outdent amount of `_indent_flexible_replace`: the minimum leading
whitespace over all non-blank search and replace lines, when positive. -/
def outdentAmount (search repl : List (List Char)) : Nat :=
  match ((search ++ repl).filter fun l => decide (pyStrip l ≠ [])).map wsCount with
  | [] => 0
  | x :: xs => (x :: xs).foldl Nat.min x

/-- `_indent_flexible_replace`. -/
def indent_flexible_replace (whole search repl : List (List Char)) : Option (List Char) :=
  if search = [] then none
  else
    if outdentAmount search repl > 0 then
      indentGo (outdentLines (outdentAmount search repl) search)
        (outdentLines (outdentAmount search repl) repl) [] whole
    else indentGo search repl [] whole

/-- Length of the maximal whitespace run at the front of a text (the
greedy match of the regex fragment whitespace-star). -/
def wsRun : List Char → Nat
  | [] => 0
  | c :: rest => if pyIsSpace c then wsRun rest + 1 else 0

/-- At a line-anchored position, the length of a match of the
`_split_by_dots` separator pattern (a whitespace run followed by three
dots and a newline), if any.  Because a dot is not whitespace, the greedy
whitespace-star can only succeed at the full run, so no further
backtracking exists. -/
def dotsMatchLen (l : List Char) : Option Nat :=
  if (l.drop (wsRun l)).take 4 = lc "...\n" then some (wsRun l + 4) else none

/-- Left-to-right scan of `re.split` for the separator pattern of
`_split_by_dots` (`MULTILINE` anchors a match at the text start or right
after a newline).  `acc` holds the current chunk in reverse; the fuel is
one unit per consumed character. -/
def splitDotsGo : Nat → Bool → List Char → List Char → List (List Char)
  | _, _, acc, [] => [acc.reverse]
  | 0, _, acc, l => [acc.reverse ++ l]
  | fuel + 1, anchored, acc, c :: rest =>
    match (if anchored then dotsMatchLen (c :: rest) else none : Option Nat) with
    | some n =>
      acc.reverse :: (c :: rest).take n ::
        splitDotsGo fuel true [] ((c :: rest).drop n)
    | none => splitDotsGo fuel (decide (c = '\n')) (c :: acc) rest

/-- `_split_by_dots`. -/
def split_by_dots (text : List Char) : List (List Char) :=
  splitDotsGo text.length true [] text

/-- Every other element of a list, starting with the first (`true`) or the
second (`false`): the even- and odd-position parts of a `re.split`
result. -/
def everyOther : Bool → List α → List α
  | _, [] => []
  | true, x :: rest => x :: everyOther false rest
  | false, _ :: rest => everyOther true rest

/-- Count of non-overlapping occurrences (Python `str.count` for a
non-empty pattern); fuel is one unit per consumed character. -/
def countOccGo (pat : List Char) : Nat → List Char → Nat
  | 0, _ => 0
  | fuel + 1, l =>
    match splitFirst pat l with
    | none => 0
    | some p => countOccGo pat fuel p.2 + 1

/-- Python `whole.count(pat)` for a non-empty `pat`. -/
def countOcc (pat l : List Char) : Nat := countOccGo pat (l.length + 1) l

/-- Python `l.replace(pat, dst, 1)`: replace the first occurrence. -/
def replaceOnce (pat dst l : List Char) : List Char :=
  match splitFirst pat l with
  | some p => p.1 ++ dst ++ p.2
  | none => l

/-- The per-chunk update loop of `_replace_with_dots` over the zipped
even-position (literal) segment pairs. -/
def dotsLoop : List Char → List (List Char × List Char) → Option (List Char)
  | updated, [] => some updated
  | updated, (src, dst) :: rest =>
    if src = [] ∧ dst = [] then dotsLoop updated rest
    else if src = [] then dotsLoop (ensure_final_newline updated ++ dst) rest
    else if countOcc src updated ≠ 1 then none
    else dotsLoop (replaceOnce src dst updated) rest

/-- The anchor-mismatch error text of `_replace_with_dots`. -/
def dotsMismatchMsg : List Char :=
  lc "Mismatched '...' segments between SEARCH and REPLACE."

/-- `_replace_with_dots`: `.ok none` is Python `None` (the strategy
declines), `.error` the hard `EditMatchError`. -/
def replace_with_dots (whole search repl : List Char) :
    Except PyErr (Option (List Char)) :=
  if (split_by_dots search).length ≠ (split_by_dots repl).length ∨
      (split_by_dots search).length = 1 then .ok none
  else if everyOther false (split_by_dots search) ≠ everyOther false (split_by_dots repl) then
    .error (.matchError dotsMismatchMsg)
  else
    .ok (dotsLoop whole ((everyOther true (split_by_dots search)).zip
      (everyOther true (split_by_dots repl))))

/-- One round of the candidate loop of `apply_search_replace`: exact
match first, then the indentation-flexible match. -/
def tryCandidate (whole_lines cand repl_lines : List (List Char)) : Option (List Char) :=
  match exact_replace whole_lines cand repl_lines with
  | some r => some r
  | none => indent_flexible_replace whole_lines cand repl_lines

/-- The no-strategy-matched error text of `apply_search_replace`. -/
def noMatchMsg : List Char := lc "SEARCH block did not match target file content."

/-- The second candidate of `apply_search_replace`: the search lines with
the leading blank line stripped, when there are more than two lines and
the first is blank. -/
def secondCandidate (search_lines : List (List Char)) : Option (List (List Char)) :=
  if 2 < search_lines.length ∧ pyStrip (search_lines.headD []) = [] then
    some (search_lines.drop 1)
  else none

/-- `apply_search_replace`: normalize both texts, treat a blank search as
an append, then try the exact and indentation-flexible strategies on each
candidate and finally the ellipsis-segmented strategy. -/
def apply_search_replace (content search0 replace0 : List Char)
    (path : Option (List Char)) : Except PyErr (List Char) :=
  if pyStrip (strip_wrapping search0 path) = [] then
    .ok (content ++ strip_wrapping replace0 path)
  else
    match tryCandidate (pySplitlinesKeep (ensure_final_newline content))
        (pySplitlinesKeep (ensure_final_newline (strip_wrapping search0 path)))
        (pySplitlinesKeep (ensure_final_newline (strip_wrapping replace0 path))) with
    | some res => .ok res
    | none =>
      match (secondCandidate (pySplitlinesKeep (ensure_final_newline (strip_wrapping search0 path)))).bind
          (fun cand => tryCandidate (pySplitlinesKeep (ensure_final_newline content)) cand
            (pySplitlinesKeep (ensure_final_newline (strip_wrapping replace0 path)))) with
      | some res => .ok res
      | none =>
        match replace_with_dots (ensure_final_newline content)
            (ensure_final_newline (strip_wrapping search0 path))
            (ensure_final_newline (strip_wrapping replace0 path)) with
        | .error e => .error e
        | .ok (some res) => .ok res
        | .ok none => .error (.matchError noMatchMsg)

/-! ## difflib (stdlib) as used by `_choose_filename`

`get_close_matches(word, possibilities, n=1, cutoff=0.8)` with the default
`SequenceMatcher` (no junk predicate; autojunk active only for sequences
of length ≥ 200).  Ratios are modelled as exact rationals via
cross-multiplication; the float cutoff `0.8` is the exact rational `4/5`
(for the short strings involved, no ratio other than `4/5` itself lies
within a float ulp of `0.8`, so float and rational comparison agree). -/

/-- The null character used as an out-of-range default (never compared). -/
def charNul : Char := Char.ofNat 0

/-- All indices of `c` in `b`, ascending (`b2j` entry before autojunk). -/
def b2jAll (b : List Char) (c : Char) : List Nat :=
  (List.range b.length).filter fun j => decide (b.getD j charNul = c)

/-- The autojunk rule: for `len(b) ≥ 200`, elements occurring more than
`len(b)//100 + 1` times are dropped from `b2j`. -/
def bPopular (b : List Char) (c : Char) : Bool :=
  decide (200 ≤ b.length) && decide (b.length / 100 + 1 < b.count c)

/-- `b2j.get(elt, [])` after autojunk. -/
def b2jGet (b : List Char) (c : Char) : List Nat :=
  if bPopular b c then [] else b2jAll b c

/-- Inner loop of `find_longest_match` over the index list of `a[i]` in
`b`: threads `newj2len` (as an association list, most recent first) and
the best `(besti, bestj, bestsize)` triple. -/
def flmJs (blo bhi i : Nat) (j2len : List (Nat × Nat)) :
    List Nat → List (Nat × Nat) → Nat × Nat × Nat → List (Nat × Nat) × (Nat × Nat × Nat)
  | [], newj2len, best => (newj2len, best)
  | j :: js, newj2len, best =>
    if j < blo then flmJs blo bhi i j2len js newj2len best
    else if bhi ≤ j then (newj2len, best)
    else
      flmJs blo bhi i j2len js ((j, ((j2len.lookup (j - 1)).getD 0 + 1)) :: newj2len)
        (if ((j2len.lookup (j - 1)).getD 0 + 1) > best.2.2 then
          (i + 1 - ((j2len.lookup (j - 1)).getD 0 + 1),
           j + 1 - ((j2len.lookup (j - 1)).getD 0 + 1),
           ((j2len.lookup (j - 1)).getD 0 + 1))
        else best)

/-- Outer loop of `find_longest_match` over `i ∈ [alo, ahi)`. -/
def flmOuter (a b : List Char) (blo bhi : Nat) :
    List Nat → List (Nat × Nat) → Nat × Nat × Nat → Nat × Nat × Nat
  | [], _, best => best
  | i :: irest, j2len, best =>
    match flmJs blo bhi i j2len (b2jGet b (a.getD i charNul)) [] best with
    | (newj2len, best1) => flmOuter a b blo bhi irest newj2len best1

/-- Backward extension loop of `find_longest_match` (the junk set is
empty, so only the plain extension loops are active). -/
def extendBack (a b : List Char) (alo blo : Nat) : Nat → Nat × Nat × Nat → Nat × Nat × Nat
  | 0, best => best
  | fuel + 1, (besti, bestj, bestsize) =>
    if alo < besti ∧ blo < bestj ∧
        a.getD (besti - 1) charNul = b.getD (bestj - 1) charNul then
      extendBack a b alo blo fuel (besti - 1, bestj - 1, bestsize + 1)
    else (besti, bestj, bestsize)

/-- Forward extension loop of `find_longest_match`. -/
def extendFwd (a b : List Char) (ahi bhi : Nat) : Nat → Nat × Nat × Nat → Nat × Nat × Nat
  | 0, best => best
  | fuel + 1, (besti, bestj, bestsize) =>
    if besti + bestsize < ahi ∧ bestj + bestsize < bhi ∧
        a.getD (besti + bestsize) charNul = b.getD (bestj + bestsize) charNul then
      extendFwd a b ahi bhi fuel (besti, bestj, bestsize + 1)
    else (besti, bestj, bestsize)

/-- `SequenceMatcher.find_longest_match` on `a[alo:ahi]` / `b[blo:bhi]`. -/
def find_longest_match (a b : List Char) (alo ahi blo bhi : Nat) : Nat × Nat × Nat :=
  extendFwd a b ahi bhi ahi
    (extendBack a b alo blo
      (flmOuter a b blo bhi (List.range' alo (ahi - alo)) [] (alo, blo, 0)).1
      (flmOuter a b blo bhi (List.range' alo (ahi - alo)) [] (alo, blo, 0)))

/-- Total size of all matching blocks (the recursive divide of
`get_matching_blocks`); the fuel shrinks by one per division. -/
def matchSum (a b : List Char) : Nat → Nat × Nat × Nat × Nat → Nat
  | 0, _ => 0
  | fuel + 1, (alo, ahi, blo, bhi) =>
    match find_longest_match a b alo ahi blo bhi with
    | (i, j, k) =>
      if k = 0 then 0
      else k +
        (if alo < i ∧ blo < j then matchSum a b fuel (alo, i, blo, j) else 0) +
        (if i + k < ahi ∧ j + k < bhi then matchSum a b fuel (i + k, ahi, j + k, bhi) else 0)

/-- The `M` of `SequenceMatcher.ratio()`: the total matched size. -/
def ratioM (a b : List Char) : Nat :=
  matchSum a b (a.length + b.length) (0, a.length, 0, b.length)

/-- The matches count of `quick_ratio`: per-element minimum of the two
occurrence counts. -/
def quickM (a b : List Char) : Nat :=
  a.eraseDups.foldl (fun s c => s + min (a.count c) (b.count c)) 0

/-- A ratio as an exact rational pair `(numerator, denominator)`;
`_calculate_ratio` returns `1.0` when both sequences are empty. -/
def ratioRep (m t : Nat) : Nat × Nat := if t = 0 then (1, 1) else (2 * m, t)

/-- `r ≥ 4/5` by cross-multiplication. -/
def geCutoff (r : Nat × Nat) : Bool := decide (5 * r.1 ≥ 4 * r.2)

/-- The three-stage cutoff filter of `get_close_matches`
(`real_quick_ratio`, `quick_ratio`, `ratio`, all at cutoff `0.8`). -/
def gcmPass (x w : List Char) : Bool :=
  geCutoff (ratioRep (min x.length w.length) (x.length + w.length)) &&
  geCutoff (ratioRep (quickM x w) (x.length + w.length)) &&
  geCutoff (ratioRep (ratioM x w) (x.length + w.length))

/-- Python string comparison (`<` by code points). -/
def strLt : List Char → List Char → Bool
  | [], [] => false
  | [], _ :: _ => true
  | _ :: _, [] => false
  | c :: cs, d :: ds =>
    if c.toNat < d.toNat then true
    else if d.toNat < c.toNat then false
    else strLt cs ds

/-- Strictly greater of two exact ratios. -/
def ratioGt (r s : Nat × Nat) : Bool := decide (r.1 * s.2 > s.1 * r.2)

/-- Equality of two exact ratios. -/
def ratioEq (r s : Nat × Nat) : Bool := decide (r.1 * s.2 = s.1 * r.2)

/-- The fold of `heapq.nlargest(1, result)` over the `(score, string)`
pairs in possibility order: a later entry replaces the best one exactly
when its tuple is strictly larger (score first, then Python string
order). -/
def gcmFold (w : List Char) : Option (List Char × Nat) → List (List Char) → Option (List Char)
  | best, [] => best.map (·.1)
  | best, x :: xs =>
    if gcmPass x w then
      match best with
      | none => gcmFold w (some (x, ratioM x w)) xs
      | some (y, my) =>
        if ratioGt (ratioRep (ratioM x w) (x.length + w.length))
              (ratioRep my (y.length + w.length)) ∨
            (ratioEq (ratioRep (ratioM x w) (x.length + w.length))
              (ratioRep my (y.length + w.length)) ∧ strLt y x) then
          gcmFold w (some (x, ratioM x w)) xs
        else gcmFold w (some (y, my)) xs
    else gcmFold w best xs

/-- `difflib.get_close_matches(word, possibilities, n=1, cutoff=0.8)`
(`none` for the empty result list). -/
def get_close_matches1 (w : List Char) (poss : List (List Char)) : Option (List Char) :=
  gcmFold w none poss

/-! ## Filename resolution and block parsing of edit_blocks.py -/

/-- Strip copies of one character from the end (Python `rstrip(ch)`). -/
def rstripChar (ch : Char) (l : List Char) : List Char :=
  (l.reverse.dropWhile (fun c => decide (c = ch))).reverse

/-- Strip copies of one character from the start (Python `lstrip(ch)`). -/
def lstripChar (ch : Char) (l : List Char) : List Char :=
  l.dropWhile (fun c => decide (c = ch))

/-- Strip copies of one character from both ends (Python `strip(ch)`). -/
def stripChar (ch : Char) (l : List Char) : List Char :=
  rstripChar ch (lstripChar ch l)

/-- The tail of `text.split(maxsplit=1)`: the remainder after the first
whitespace run. -/
def splitMax1Tail (l : List Char) : List Char :=
  (l.dropWhile fun c => !(pyIsSpace c)).dropWhile pyIsSpace

/-- `_normalize_filename` (the fence is always the default, so the two
`startswith` tests coincide). -/
def normalize_filename (raw : List Char) : Option (List Char) :=
  if pyStrip raw = [] ∨ pyStrip raw = lc "..." then none
  else if fenceMark <+: pyStrip raw then
    if (if ' ' ∈ pyStrip raw then splitMax1Tail (pyStrip raw) else []) ≠ [] ∧
        ('.' ∈ (if ' ' ∈ pyStrip raw then splitMax1Tail (pyStrip raw) else []) ∨
         '/' ∈ (if ' ' ∈ pyStrip raw then splitMax1Tail (pyStrip raw) else []) ∨
         '\\' ∈ (if ' ' ∈ pyStrip raw then splitMax1Tail (pyStrip raw) else [])) then
      some (if ' ' ∈ pyStrip raw then splitMax1Tail (pyStrip raw) else [])
    else none
  else
    if stripChar '*' (stripChar charBq (pyStrip (lstripChar '#' (rstripChar ':' (pyStrip raw))))) = [] then none
    else some (stripChar '*' (stripChar charBq (pyStrip (lstripChar '#' (rstripChar ':' (pyStrip raw))))))

/-- The candidate-collection loop of `_choose_filename` over the (at
most three) preceding lines in reverse order: each line contributes its
normalized candidate, and the walk stops at the first line that does not
open with a fence. -/
def collectCands : List (List Char) → List (List Char)
  | [] => []
  | line :: rest =>
    if fenceMark <+: line then
      (match normalize_filename line with | some c => [c] | none => []) ++ collectCands rest
    else
      match normalize_filename line with | some c => [c] | none => []

/-- `_choose_filename`: candidates from the last three lines, then exact
match, base-name match, closest match at cutoff 0.8, and finally the
first candidate verbatim. -/
def choose_filename (lines valid : List (List Char)) : Option (List Char) :=
  match collectCands ((lines.drop (lines.length - 3)).reverse) with
  | [] => none
  | c :: cs =>
    match (c :: cs).find? (fun x => decide (x ∈ valid)) with
    | some r => some r
    | none =>
      match (c :: cs).findSome? (fun x => valid.find? (fun v => decide (x = pathName v))) with
      | some r => some r
      | none =>
        match (c :: cs).findSome? (fun x => get_close_matches1 x valid) with
        | some r => some r
        | none => some c

/-- One edit block of `parse_edit_blocks`. -/
structure EditBlock where
  path : List Char
  search : List Char
  replace : List Char
deriving DecidableEq, Repr

/-- `SEARCH_MARK` on an already-stripped line. -/
def isSearchMark (l : List Char) : Bool :=
  decide (5 ≤ (l.takeWhile fun c => decide (c = '<')).length) &&
  decide ((l.takeWhile fun c => decide (c = '<')).length ≤ 9) &&
  (decide (l.drop (l.takeWhile fun c => decide (c = '<')).length = lc " SEARCH") ||
   decide (l.drop (l.takeWhile fun c => decide (c = '<')).length = lc " SEARCH>"))

/-- `DIVIDER_MARK` on an already-stripped line. -/
def isDividerMark (l : List Char) : Bool :=
  decide (5 ≤ l.length) && decide (l.length ≤ 9) && l.all fun c => decide (c = '=')

/-- `REPLACE_MARK` on an already-stripped line. -/
def isReplaceMark (l : List Char) : Bool :=
  decide (5 ≤ (l.takeWhile fun c => decide (c = '>')).length) &&
  decide ((l.takeWhile fun c => decide (c = '>')).length ≤ 9) &&
  decide (l.drop (l.takeWhile fun c => decide (c = '>')).length = lc " REPLACE")

/-- The scan loop of `parse_edit_blocks`: `prev` holds the already-seen
lines most recent first (for the three-line lookback); the fuel shrinks
by one per processed block or skipped line. -/
def parseBlocksGo (valid : List (List Char)) :
    Nat → List (List Char) → List (List Char) → Option (List Char) →
    Except PyErr (List EditBlock)
  | _, _, [], _ => .ok []
  | 0, _, _ :: _, _ => .ok []
  | fuel + 1, prev, l :: rest, current =>
    if isSearchMark (pyStrip l) = true then
      match choose_filename ((prev.take 3).reverse) valid <|> current with
      | none => .error (.parseError (lc "Missing filename before SEARCH block."))
      | some filename =>
        match (rest.span fun x => !(isDividerMark (pyStrip x))) with
        | (searchBuf, rest1) =>
          match rest1 with
          | [] => .error (.parseError (lc "Expected divider line: ======="))
          | d :: rest2 =>
            match (rest2.span fun x =>
                !(isReplaceMark (pyStrip x)) && !(isDividerMark (pyStrip x))) with
            | (replaceBuf, rest3) =>
              match rest3 with
              | [] => .error (.parseError (lc "Expected closing line: >>>>>>> REPLACE"))
              | r :: rest4 =>
                (parseBlocksGo valid fuel
                    (r :: replaceBuf.reverse ++ d :: searchBuf.reverse ++ l :: prev)
                    rest4 (some filename)).map
                  (⟨filename, joinAll searchBuf, joinAll replaceBuf⟩ :: ·)
    else parseBlocksGo valid fuel (l :: prev) rest current

/-- `parse_edit_blocks`. -/
def parse_edit_blocks (text : List Char) (valid : List (List Char)) :
    Except PyErr (List EditBlock) :=
  parseBlocksGo valid (pySplitlinesKeep text).length [] (pySplitlinesKeep text) none

/-! ## core/skills/file_manage/scripts/editor.py

`edit_file_in_workspace` over an explicit workspace-filesystem state:
paths are workspace-relative strings (the `WorkspaceGuard` resolution of
an in-workspace relative path is the identity on its posix-relative
form, which is also what `rel_path` and the returned outcome path
yield). -/

/-- A workspace filesystem: the directories present (as relative paths)
and the files with their contents. -/
structure FS where
  dirs : List (List Char)
  files : List (List Char × List Char)
deriving DecidableEq, Repr

/-- `"/".join` of path segments. -/
def joinSlash : List (List Char) → List Char
  | [] => []
  | [l] => l
  | l :: ls => l ++ '/' :: joinSlash ls

/-- The proper ancestor directories of a relative path, shortest
first. -/
def parentDirs (p : List Char) : List (List Char) :=
  (List.range ((splitSlash p).length - 1)).map fun k => joinSlash ((splitSlash p).take (k + 1))

/-- `abs_path.parent.mkdir(parents=True, exist_ok=True)`: create every
missing ancestor directory. -/
def mkdirParents (fs : FS) (p : List Char) : FS :=
  ⟨fs.dirs ++ (parentDirs p).filter (fun d => decide (d ∉ fs.dirs)), fs.files⟩

/-- `abs_path.exists()`. -/
def fsHas (fs : FS) (p : List Char) : Bool :=
  (fs.files.lookup p).isSome || decide (p ∈ fs.dirs)

/-- `abs_path.read_text()` (`none` when `p` is not a file). -/
def fsRead (fs : FS) (p : List Char) : Option (List Char) := fs.files.lookup p

/-- `abs_path.write_text(c)`. -/
def fsWrite (fs : FS) (p c : List Char) : FS :=
  ⟨fs.dirs, (p, c) :: fs.files.filter fun q => decide (¬ q.1 = p)⟩

/-- The read-patch-write tail of `edit_file_in_workspace`, after the
existence handling. -/
def editTail (fs : FS) (p search repl : List Char) : FS × Except PyErr (List Char × Bool) :=
  match fsRead fs p with
  | none => (fs, .error (.runtimeError (lc "is a directory")))
  | some original =>
    match apply_search_replace original search repl (some p) with
    | .error e => (fs, .error e)
    | .ok updated =>
      if updated ≠ original then (fsWrite fs p updated, .ok (p, true))
      else (fs, .ok (p, false))

/-- `edit_file_in_workspace` over the filesystem state: parent
directories are created first; a missing target with a non-blank search
raises `EditMatchError`; a missing target with a blank search is created
empty; then the patch engine runs and the file is rewritten only when
the content changed.  Returns the filesystem after the call together
with the outcome (`(path, changed)`) or the exception raised. -/
def edit_file_in_workspace (fs : FS) (p search repl : List Char) :
    FS × Except PyErr (List Char × Bool) :=
  if fsHas (mkdirParents fs p) p = false then
    if pyStrip search ≠ [] then
      (mkdirParents fs p, .error (.matchError (lc "Target file does not exist: " ++ p)))
    else editTail (fsWrite (mkdirParents fs p) p []) p search repl
  else editTail (mkdirParents fs p) p search repl

/-! ## Decimal digit lemmas -/

theorem natDigits_ne_nil (n : Nat) : natDigits n ≠ [] := by
  rw [natDigits, natDigitsAux]
  split <;> simp

theorem digitChar_toNat {d : Nat} (h : d < 10) : (digitChar d).toNat = 48 + d := by
  interval_cases d <;> decide

theorem natDigitsAux_mem_list {fuel n : Nat} {c : Char} (h : c ∈ natDigitsAux fuel n) :
    c ∈ ['0', '1', '2', '3', '4', '5', '6', '7', '8', '9'] := by
  induction fuel generalizing n with
  | zero => simp [natDigitsAux] at h
  | succ m ih =>
    rw [natDigitsAux] at h
    split at h
    · rename_i hn
      rcases List.mem_singleton.mp h with rfl
      interval_cases n <;> decide
    · rcases List.mem_append.mp h with h1 | h1
      · exact ih h1
      · rcases List.mem_singleton.mp h1 with rfl
        have hm : n % 10 < 10 := Nat.mod_lt _ (by omega)
        interval_cases hh : n % 10 <;> decide

theorem natDigits_mem_list {n : Nat} {c : Char} (h : c ∈ natDigits n) :
    c ∈ ['0', '1', '2', '3', '4', '5', '6', '7', '8', '9'] := natDigitsAux_mem_list h

theorem natDigits_mem_digit {n : Nat} {c : Char} (h : c ∈ natDigits n) :
    48 ≤ c.toNat ∧ c.toNat ≤ 57 := by
  have h2 := natDigits_mem_list h
  fin_cases h2 <;> decide

theorem digitsVal_append (l1 l2 : List Char) :
    digitsVal (l1 ++ l2) = l2.foldl (fun a c => 10 * a + (c.toNat - 48)) (digitsVal l1) := by
  simp [digitsVal, List.foldl_append]

theorem digitsVal_natDigitsAux {fuel n : Nat} (h : n < fuel) :
    digitsVal (natDigitsAux fuel n) = n := by
  induction fuel generalizing n with
  | zero => omega
  | succ m ih =>
    rw [natDigitsAux]
    split
    · rename_i hn
      simp [digitsVal, digitChar_toNat hn]
    · rename_i hn
      rw [digitsVal_append, ih (by omega)]
      have h10 : n % 10 < 10 := Nat.mod_lt _ (by omega)
      simp [digitChar_toNat h10]
      omega

theorem digitsVal_natDigits (n : Nat) : digitsVal (natDigits n) = n :=
  digitsVal_natDigitsAux (by omega)

theorem natDigits_isDigit {n : Nat} {c : Char} (h : c ∈ natDigits n) : c.isDigit := by
  have h2 := natDigits_mem_list h
  fin_cases h2 <;> decide

/-! ## Strip lemmas -/

theorem dropWhile_append_of_all {p : Char → Bool} {w t : List Char}
    (h : ∀ c ∈ w, p c) : (w ++ t).dropWhile p = t.dropWhile p := by
  induction w with
  | nil => rfl
  | cons c w ih =>
    simp only [List.cons_append, List.dropWhile_cons, h c (by simp)]
    exact ih fun x hx => h x (by simp [hx])

theorem dropWhile_cons_of_neg {p : Char → Bool} {c : Char} {t : List Char}
    (h : ¬ p c) : (c :: t).dropWhile p = c :: t := by
  simp [List.dropWhile_cons, h]

theorem dropWhile_head_not {p : Char → Bool} {l : List Char} :
    l.dropWhile p = [] ∨ ∃ c t, l.dropWhile p = c :: t ∧ ¬ p c := by
  induction l with
  | nil => left; rfl
  | cons c l ih =>
    by_cases h : p c
    · simpa [List.dropWhile_cons, h] using ih
    · right; exact ⟨c, l, by simp [List.dropWhile_cons, h], h⟩

theorem pyLStrip_append_space {w t : List Char} (h : ∀ c ∈ w, pyIsSpace c) :
    pyLStrip (w ++ t) = pyLStrip t := dropWhile_append_of_all h

theorem pyLStrip_cons_not {c : Char} {t : List Char} (h : ¬ pyIsSpace c) :
    pyLStrip (c :: t) = c :: t := dropWhile_cons_of_neg h

theorem pyRStrip_append_space {w t : List Char} (h : ∀ c ∈ w, pyIsSpace c) :
    pyRStrip (t ++ w) = pyRStrip t := by
  simp only [pyRStrip, List.reverse_append]
  rw [dropWhile_append_of_all (by simpa using h)]

theorem pyRStrip_concat_not {c : Char} {t : List Char} (h : ¬ pyIsSpace c) :
    pyRStrip (t ++ [c]) = t ++ [c] := by
  simp only [pyRStrip, List.reverse_append, List.reverse_cons, List.reverse_nil,
    List.nil_append, List.cons_append]
  rw [dropWhile_cons_of_neg h]
  simp

theorem pyStrip_sandwich {w1 w2 b : List Char} (hw1 : ∀ c ∈ w1, pyIsSpace c)
    (hw2 : ∀ c ∈ w2, pyIsSpace c) (hhead : ∃ c t, b = c :: t ∧ ¬ pyIsSpace c)
    (hlast : ∃ c t, b = t ++ [c] ∧ ¬ pyIsSpace c) :
    pyStrip (w1 ++ b ++ w2) = b := by
  obtain ⟨c, t, rfl, hc⟩ := hhead
  obtain ⟨d, s, he, hd⟩ := hlast
  rw [pyStrip, List.append_assoc, pyLStrip_append_space hw1, List.cons_append,
    pyLStrip_cons_not hc, ← List.cons_append, pyRStrip_append_space hw2, he,
    pyRStrip_concat_not hd]

theorem pyStrip_no_strip {b : List Char} (hhead : ∃ c t, b = c :: t ∧ ¬ pyIsSpace c)
    (hlast : ∃ c t, b = t ++ [c] ∧ ¬ pyIsSpace c) : pyStrip b = b := by
  have := @pyStrip_sandwich [] [] b (by simp) (by simp) hhead hlast
  simpa using this

theorem pyLStrip_suffix (l : List Char) : pyLStrip l <:+ l := List.dropWhile_suffix _

theorem pyRStrip_front (l : List Char) : pyRStrip l <+: l := by
  have hsuf : l.reverse.dropWhile pyIsSpace <:+ l.reverse := List.dropWhile_suffix _
  obtain ⟨w, hw⟩ := hsuf
  refine ⟨w.reverse, ?_⟩
  have h2 := congrArg List.reverse hw
  simpa [pyRStrip] using h2

theorem pyStrip_infix (l : List Char) : pyStrip l <:+: l :=
  List.IsInfix.trans (pyRStrip_front _).isInfix
    ((pyLStrip_suffix l).isInfix)

theorem pyRStrip_last_not {l : List Char} (h : pyRStrip l ≠ []) :
    ∃ c t, pyRStrip l = t ++ [c] ∧ ¬ pyIsSpace c := by
  rcases @dropWhile_head_not pyIsSpace l.reverse with h1 | ⟨c, t, h1, hc⟩
  · exact absurd (by simp [pyRStrip, h1]) h
  · exact ⟨c, t.reverse, by simp [pyRStrip, h1], hc⟩

theorem pyLStrip_head_not {l : List Char} (h : pyLStrip l ≠ []) :
    ∃ c t, pyLStrip l = c :: t ∧ ¬ pyIsSpace c := by
  rcases @dropWhile_head_not pyIsSpace l with h1 | ⟨c, t, h1, hc⟩
  · exact absurd h1 h
  · exact ⟨c, t, h1, hc⟩

theorem pyStrip_head_not {l : List Char} (h : pyStrip l ≠ []) :
    ∃ c t, pyStrip l = c :: t ∧ ¬ pyIsSpace c := by
  have hne : pyLStrip l ≠ [] := by
    intro he
    apply h
    rw [pyStrip, he]
    rfl
  obtain ⟨c, t, h1, hc⟩ := pyLStrip_head_not hne
  obtain ⟨w, hw⟩ := pyRStrip_front (pyLStrip l)
  rw [pyStrip] at h ⊢
  rcases he : pyRStrip (pyLStrip l) with _ | ⟨d, s⟩
  · exact absurd he h
  · refine ⟨d, s, rfl, ?_⟩
    rw [he, h1] at hw
    have hdc : d = c := by
      have h3 := congrArg List.head? hw
      simpa using h3
    rwa [hdc]

theorem pyStrip_last_not {l : List Char} (h : pyStrip l ≠ []) :
    ∃ c t, pyStrip l = t ++ [c] ∧ ¬ pyIsSpace c := pyRStrip_last_not h

theorem pyStrip_idem (l : List Char) : pyStrip (pyStrip l) = pyStrip l := by
  by_cases h : pyStrip l = []
  · rw [h]; rfl
  · exact pyStrip_no_strip (pyStrip_head_not h) (pyStrip_last_not h)

/-! ## splitFirst and substring-occurrence lemmas -/

theorem splitFirst_at_head {pat t : List Char} (h : pat <+: t) :
    splitFirst pat t = some ([], t.drop pat.length) := by
  cases t with
  | nil =>
    have : pat = [] := List.prefix_nil.mp h
    subst this
    rfl
  | cons c rest =>
    rw [splitFirst, if_pos (List.isPrefixOf_iff_prefix.mpr h)]

theorem splitFirst_cons_of_not_prefix {pat : List Char} {c : Char} {rest : List Char}
    (h : ¬ pat <+: (c :: rest)) :
    splitFirst pat (c :: rest) = (splitFirst pat rest).map (fun p => (c :: p.1, p.2)) := by
  rw [splitFirst, if_neg (fun hb => h (List.isPrefixOf_iff_prefix.mp hb))]

theorem splitFirst_eq_append {pat t x y : List Char} (h : splitFirst pat t = some (x, y)) :
    t = x ++ pat ++ y := by
  induction t generalizing x y with
  | nil =>
    rw [splitFirst] at h
    split at h
    · rename_i hp
      have : pat = [] := List.prefix_nil.mp (List.isPrefixOf_iff_prefix.mp hp)
      simp_all
    · simp at h
  | cons c rest ih =>
    rw [splitFirst] at h
    split at h
    · rename_i hp
      have hp2 := List.isPrefixOf_iff_prefix.mp hp
      obtain ⟨w, hw⟩ := hp2
      simp only [Option.some.injEq, Prod.mk.injEq] at h
      rw [← h.1, ← h.2, ← hw]
      simp [List.drop_left]
    · rcases hs : splitFirst pat rest with _ | ⟨a, b⟩
      · rw [hs] at h; exact Option.noConfusion h
      · rw [hs] at h
        simp only [Option.map_some', Option.some.injEq, Prod.mk.injEq] at h
        rw [← h.1, ← h.2]
        simpa using ih hs

theorem splitFirst_before_no_infix {pat t x y : List Char} (hne : pat ≠ [])
    (h : splitFirst pat t = some (x, y)) : ¬ pat <:+: x := by
  induction t generalizing x y with
  | nil =>
    rw [splitFirst] at h
    split at h
    · simp only [Option.some.injEq, Prod.mk.injEq] at h
      rw [← h.1]
      intro hin
      exact hne (List.eq_nil_of_infix_nil hin)
    · simp at h
  | cons c rest ih =>
    rw [splitFirst] at h
    split at h
    · simp only [Option.some.injEq, Prod.mk.injEq] at h
      rw [← h.1]
      intro hin
      exact hne (List.eq_nil_of_infix_nil hin)
    · rename_i hp
      rcases hs : splitFirst pat rest with _ | ⟨a, b⟩
      · rw [hs] at h; exact Option.noConfusion h
      · rw [hs] at h
        simp only [Option.map_some', Option.some.injEq, Prod.mk.injEq] at h
        rw [← h.1]
        intro hin
        rcases List.infix_cons_iff.mp hin with h2 | h2
        · apply hp
          apply List.isPrefixOf_iff_prefix.mpr
          have ht := splitFirst_eq_append hs
          have hcr : c :: rest = (c :: a) ++ (pat ++ b) := by
            rw [ht]; simp
          rw [hcr]
          exact h2.trans (List.prefix_append _ _)
        · exact ih hs h2

theorem infix_append_cases {p u v : List Char} (h : p <:+: (u ++ v)) :
    p <:+: u ∨ p <:+: v ∨
      ∃ k, 0 < k ∧ k < p.length ∧ (p.take k) <:+ u ∧ (p.drop k) <+: v := by
  obtain ⟨s, t, hst⟩ := h
  have hlen := congrArg List.length hst
  simp only [List.length_append] at hlen
  by_cases h1 : s.length + p.length ≤ u.length
  · left
    set r := u.length - s.length - p.length with hr
    have hu : u = s ++ (p ++ t.take r) := by
      have h3 : (s ++ p ++ t).take u.length = u := by rw [hst, List.take_left]
    -- take through the two appends with the length split u.length = |s| + (|p| + r)
      rw [← h3, List.append_assoc,
        show u.length = s.length + (p.length + r) by omega,
        List.take_append, List.take_append]
    exact ⟨s, t.take r, by rw [hu]; simp⟩
  · by_cases h2 : u.length ≤ s.length
    · right; left
      have hv : v = (s.drop u.length) ++ p ++ t := by
        have h3 : (s ++ p ++ t).drop u.length = v := by rw [hst, List.drop_left]
        rw [← h3, List.append_assoc, List.drop_append_of_le_length h2, List.append_assoc]
      exact ⟨s.drop u.length, t, by rw [hv]⟩
    · right; right
      have hk1 : 0 < u.length - s.length := by omega
      have hk2 : u.length - s.length < p.length := by omega
      refine ⟨u.length - s.length, hk1, hk2, ?_, ?_⟩
      · have h3 : (s ++ p ++ t).take u.length = u := by rw [hst, List.take_left]
        have h4 : (s ++ (p ++ t)).take (s.length + (u.length - s.length)) =
            s ++ p.take (u.length - s.length) := by
          rw [List.take_append, List.take_append_of_le_length (by omega)]
        have hu : u = s ++ p.take (u.length - s.length) := by
          rw [← h4, ← List.append_assoc,
            show s.length + (u.length - s.length) = u.length by omega, h3]
        exact ⟨s, hu.symm⟩
      · have h3 : (s ++ p ++ t).drop u.length = v := by rw [hst, List.drop_left]
        have h4 : (s ++ (p ++ t)).drop (s.length + (u.length - s.length)) =
            p.drop (u.length - s.length) ++ t := by
          rw [List.drop_append, List.drop_append_of_le_length (by omega)]
        have hv : v = p.drop (u.length - s.length) ++ t := by
          rw [← h4, ← List.append_assoc,
            show s.length + (u.length - s.length) = u.length by omega, h3]
        exact ⟨t, hv.symm⟩

theorem mem_of_head?_eq {l : List Char} {a : Char} (h : l.head? = some a) : a ∈ l := by
  cases l with
  | nil => simp at h
  | cons c t =>
    simp only [List.head?_cons, Option.some.injEq] at h
    simp [h]

theorem head?_of_prefix {p q : List Char} (h : p <+: q) (hp : p ≠ []) :
    q.head? = p.head? := by
  obtain ⟨t, rfl⟩ := h
  cases p with
  | nil => exact absurd rfl hp
  | cons c s => simp

theorem head?_take_pos {p : List Char} {k : Nat} (hk : 0 < k) :
    (p.take k).head? = p.head? := by
  cases p with
  | nil => simp
  | cons c t =>
    cases k with
    | zero => omega
    | succ m => simp

theorem prefix_append_of_le {p u v : List Char} (h : p <+: (u ++ v))
    (hl : p.length ≤ u.length) : p <+: u := by
  obtain ⟨t, ht⟩ := h
  have h3 : (p ++ t).take u.length = u := by rw [ht, List.take_left]
  have h4 : (p ++ t).take (p.length + (u.length - p.length)) =
      p ++ t.take (u.length - p.length) := List.take_append _
  exact ⟨t.take (u.length - p.length), by
    rw [← h4, show p.length + (u.length - p.length) = u.length by omega, h3]⟩

theorem not_infix_append_of_head {p u v : List Char} {h0 : Char}
    (hp : p.head? = some h0) (hu : h0 ∉ u) (hv : ¬ p <:+: v) : ¬ p <:+: (u ++ v) := by
  intro hin
  rcases infix_append_cases hin with h1 | h1 | ⟨k, hk0, _hkl, hsuf, _hpre⟩
  · exact hu (h1.subset (mem_of_head?_eq hp))
  · exact hv h1
  · apply hu
    apply hsuf.subset
    apply mem_of_head?_eq
    rw [head?_take_pos hk0]
    exact hp

theorem not_infix_append_sep {p u w : List Char} {sep : Char} (hsep : sep ∉ p)
    (hp : p ≠ []) (hu : ¬ p <:+: u) (hw : ¬ p <:+: w) : ¬ p <:+: (u ++ sep :: w) := by
  intro hin
  rcases infix_append_cases hin with h1 | h1 | ⟨k, _hk0, hkl, _hsuf, hpre⟩
  · exact hu h1
  · rcases List.infix_cons_iff.mp h1 with h2 | h2
    · apply hsep
      apply mem_of_head?_eq
      rw [← head?_of_prefix h2 hp]
      rfl
    · exact hw h2
  · apply hsep
    have hd : (p.drop k) ≠ [] := by
      intro he
      have := List.drop_eq_nil_iff.mp he
      omega
    have h3 : (sep :: w).head? = (p.drop k).head? := head?_of_prefix hpre hd
    have h4 : (p.drop k).head? = some sep := by
      rw [← h3]; rfl
    exact List.drop_subset _ _ (mem_of_head?_eq h4)

theorem infix_extend_left {p x u : List Char} (h : p <:+: u) : p <:+: (x ++ u) := by
  obtain ⟨s, t, rfl⟩ := h
  exact ⟨x ++ s, t, by simp⟩

theorem infix_extend_cons {p : List Char} {c : Char} {u : List Char}
    (h : p <:+: u) : p <:+: (c :: u) := @infix_extend_left _ [c] _ h

/-- `splitFirst` finds an occurrence placed after a prefix containing no
earlier occurrence start (no occurrence of `pat` fits inside
`x ++ pat.dropLast`). -/
theorem splitFirst_append_of_no_early {pat x y : List Char} (hne : pat ≠ [])
    (hno : ¬ pat <:+: (x ++ pat.dropLast)) :
    splitFirst pat (x ++ pat ++ y) = some (x, y) := by
  induction x with
  | nil =>
    simp only [List.nil_append]
    rw [splitFirst_at_head (List.prefix_append _ _), List.drop_left]
  | cons c x' ih =>
    have hsplit : (c :: x') ++ pat ++ y = c :: (x' ++ pat ++ y) := by simp
    have hnp : ¬ pat <+: (c :: (x' ++ pat ++ y)) := by
      intro hpf
      apply hno
      have hpat : pat.dropLast ++ [pat.getLast hne] = pat :=
        List.dropLast_append_getLast hne
      have hre : c :: (x' ++ pat ++ y) = ((c :: x') ++ pat.dropLast) ++
          ([pat.getLast hne] ++ y) := by
        conv_lhs => rw [← hpat]
        simp
      have hlen : pat.length ≤ ((c :: x') ++ pat.dropLast).length := by
        simp [List.length_dropLast]
        have : 1 ≤ pat.length := List.length_pos.mpr hne
        omega
      have := prefix_append_of_le (hre ▸ hpf) hlen
      exact this.isInfix
    rw [hsplit, splitFirst_cons_of_not_prefix hnp]
    have hno' : ¬ pat <:+: (x' ++ pat.dropLast) := by
      intro h2
      exact hno (infix_extend_cons (by simpa using h2))
    rw [ih hno']
    rfl

/-! ## splitlines lemmas -/

theorem pySplitlinesGo_no_break {ke : Bool} :
    ∀ (fuel : Nat) (l acc : List Char), l.length ≤ fuel →
      (∀ c ∈ l, isLineBreak c = false) →
      pySplitlinesGo ke fuel l acc =
        if acc.reverse ++ l = [] then [] else [acc.reverse ++ l] := by
  intro fuel
  induction fuel with
  | zero =>
    intro l acc hl _h
    rw [List.length_eq_zero.mp (Nat.le_zero.mp hl)]
    simp [pySplitlinesGo, List.isEmpty_iff]
  | succ m ih =>
    intro l acc hl h
    cases l with
    | nil => simp [pySplitlinesGo, List.isEmpty_iff]
    | cons c rest =>
      have hc : isLineBreak c = false := h c (by simp)
      have hcr : ¬ (c = '\r' ∧ rest.head? = some '\n') := by
        rintro ⟨rfl, _⟩
        simp [isLineBreak] at hc
      rw [pySplitlinesGo, if_neg hcr, if_neg (by simp [hc])]
      rw [ih rest (c :: acc) (by simp at hl; omega) (fun d hd => h d (by simp [hd]))]
      simp

theorem pySplitlinesGo_newline {ke : Bool} :
    ∀ (fuel : Nat) (l rest acc : List Char), (l ++ '\n' :: rest).length ≤ fuel →
      (∀ c ∈ l, isLineBreak c = false) →
      pySplitlinesGo ke fuel (l ++ '\n' :: rest) acc =
        (acc.reverse ++ l ++ if ke then ['\n'] else []) ::
          pySplitlinesGo ke (fuel - (l.length + 1)) rest [] := by
  intro fuel
  induction fuel with
  | zero =>
    intro l rest acc hl
    simp at hl
  | succ m ih =>
    intro l rest acc hl h
    cases l with
    | nil =>
      rw [List.nil_append, pySplitlinesGo]
      have hnr : ¬ (('\n' : Char) = '\r' ∧ rest.head? = some '\n') := by
        rintro ⟨h1, _⟩
        exact absurd h1 (by decide)
      rw [if_neg hnr, if_pos (by decide)]
      simp
    | cons c l2 =>
      have hc : isLineBreak c = false := h c (by simp)
      have hcr : ¬ (c = '\r' ∧ (l2 ++ '\n' :: rest).head? = some '\n') := by
        rintro ⟨rfl, _⟩
        simp [isLineBreak] at hc
      rw [List.cons_append, pySplitlinesGo, if_neg hcr, if_neg (by simp [hc])]
      rw [ih l2 rest (c :: acc) (by simp at hl ⊢; omega) (fun d hd => h d (by simp [hd]))]
      congr 1
      · simp
      · congr 1
        simp only [List.length_cons]
        omega

/-- `splitlines` of a `"\n".join` of break-free non-empty lines returns
exactly those lines. -/
theorem pySplitlines_joinNl {ls : List (List Char)} (hne : ls ≠ [])
    (h : ∀ l ∈ ls, l ≠ [] ∧ ∀ c ∈ l, isLineBreak c = false) :
    pySplitlines (joinNl ls) = ls := by
  induction ls with
  | nil => exact absurd rfl hne
  | cons l ls ih =>
    cases ls with
    | nil =>
      have hl := h l (by simp)
      rw [joinNl, pySplitlines, pySplitlinesGo_no_break _ _ _ (le_refl _) hl.2]
      simp [hl.1]
    | cons l2 ls2 =>
      have hl := h l (by simp)
      have hj : joinNl (l :: l2 :: ls2) = l ++ '\n' :: joinNl (l2 :: ls2) := rfl
      rw [pySplitlines, hj, pySplitlinesGo_newline _ _ _ _ (by simp) hl.2]
      have harith : (l ++ '\n' :: joinNl (l2 :: ls2)).length - (l.length + 1) =
          (joinNl (l2 :: ls2)).length := by
        simp
        omega
      rw [harith]
      have h2 := ih (List.cons_ne_nil _ _) (fun x hx => h x (by simp [hx]))
      rw [pySplitlines] at h2
      simp [h2]

theorem pySplitlinesGo_mem_no_break {seg : List Char} :
    ∀ (fuel : Nat) (l acc : List Char),
      (∀ c ∈ acc, isLineBreak c = false) → seg ∈ pySplitlinesGo false fuel l acc →
      ∀ c ∈ seg, isLineBreak c = false := by
  intro fuel
  induction fuel with
  | zero =>
    intro l acc hacc hseg
    cases l with
    | nil =>
      rw [pySplitlinesGo] at hseg
      split at hseg
      · simp at hseg
      · rcases List.mem_singleton.mp hseg with rfl
        intro c hc
        exact hacc c (by simpa using hc)
    | cons c rest => simp [pySplitlinesGo] at hseg
  | succ m ihn =>
    intro l acc hacc hseg
    cases l with
    | nil =>
      rw [pySplitlinesGo] at hseg
      split at hseg
      · simp at hseg
      · rcases List.mem_singleton.mp hseg with rfl
        intro c hc
        exact hacc c (by simpa using hc)
    | cons c rest =>
      rw [pySplitlinesGo] at hseg
      split at hseg
      · simp only [Bool.false_eq_true, if_false, List.append_nil] at hseg
        rcases List.mem_cons.mp hseg with rfl | h2
        · intro d hd
          exact hacc d (by simpa using hd)
        · exact ihn rest.tail [] (by simp) h2
      · split at hseg
        · simp only [Bool.false_eq_true, if_false, List.append_nil] at hseg
          rcases List.mem_cons.mp hseg with rfl | h2
          · intro d hd
            exact hacc d (by simpa using hd)
          · exact ihn rest [] (by simp) h2
        · rename_i h1 h2
          refine ihn rest (c :: acc) ?_ hseg
          intro d hd
          rcases List.mem_cons.mp hd with rfl | h3
          · simpa using h2
          · exact hacc d h3

theorem pySplitlinesGo_mem_infix {seg : List Char} :
    ∀ (fuel : Nat) (l acc : List Char),
      seg ∈ pySplitlinesGo false fuel l acc → seg <:+: (acc.reverse ++ l) := by
  intro fuel
  induction fuel with
  | zero =>
    intro l acc hseg
    cases l with
    | nil =>
      rw [pySplitlinesGo] at hseg
      split at hseg
      · simp at hseg
      · rcases List.mem_singleton.mp hseg with rfl
        simp
    | cons c rest => simp [pySplitlinesGo] at hseg
  | succ m ihn =>
    intro l acc hseg
    cases l with
    | nil =>
      rw [pySplitlinesGo] at hseg
      split at hseg
      · simp at hseg
      · rcases List.mem_singleton.mp hseg with rfl
        simp
    | cons c rest =>
      rw [pySplitlinesGo] at hseg
      split at hseg
      · rename_i hcr
        simp only [Bool.false_eq_true, if_false, List.append_nil] at hseg
        rcases List.mem_cons.mp hseg with rfl | h2
        · exact ⟨[], c :: rest, by simp⟩
        · obtain ⟨rfl, hh⟩ := hcr
          cases rest with
          | nil => simp at hh
          | cons r rs =>
            simp only [List.head?_cons, Option.some.injEq] at hh
            subst hh
            have h3 := ihn rs [] h2
            simp only [List.reverse_nil, List.nil_append] at h3
            have h4 := @infix_extend_left _ (acc.reverse ++ ['\r', '\n']) _ h3
            simpa using h4
      · split at hseg
        · simp only [Bool.false_eq_true, if_false, List.append_nil] at hseg
          rcases List.mem_cons.mp hseg with rfl | h2
          · exact ⟨[], c :: rest, by simp⟩
          · have h3 := ihn rest [] h2
            simp only [List.reverse_nil, List.nil_append] at h3
            have h4 := @infix_extend_left _ (acc.reverse ++ [c]) _ h3
            simpa using h4
        · have h3 := ihn rest (c :: acc) hseg
          simpa using h3

/-! ## Round-trip machinery -/

theorem takeWhile_append_of_all {p : Char → Bool} {u v : List Char}
    (h : ∀ c ∈ u, p c) : (u ++ v).takeWhile p = u ++ v.takeWhile p := by
  induction u with
  | nil => rfl
  | cons c u ih =>
    have ih2 := ih (fun x hx => h x (by simp [hx]))
    simp [List.takeWhile_cons, h c (by simp), ih2]

theorem takeWhile_cons_neg {p : Char → Bool} {c : Char} {v : List Char}
    (h : ¬ p c) : (c :: v).takeWhile p = [] := by
  simp [List.takeWhile_cons, h]

theorem status_no_rbracket {st : List Char} (h : st ∈ VALID_STATUS) : ']' ∉ st := by
  fin_cases h <;> decide

theorem status_no_lt {st : List Char} (h : st ∈ VALID_STATUS) : '<' ∉ st := by
  fin_cases h <;> decide

theorem status_no_break {st : List Char} (h : st ∈ VALID_STATUS) :
    ∀ c ∈ st, isLineBreak c = false := by
  fin_cases h <;> decide

theorem matchTitlePart_shape {T : List Char} (hT1 : T ≠ []) (hT2 : ∀ c ∈ T, c ≠ '\n') :
    matchTitlePart (lc "] " ++ T) = some T := by
  have hpre : (lc "] ").isPrefixOf (lc "] " ++ T) = true :=
    List.isPrefixOf_iff_prefix.mpr (List.prefix_append _ _)
  have hdrop : (lc "] " ++ T).drop 2 = T := List.drop_left' (by decide)
  rw [matchTitlePart, if_pos hpre, hdrop, if_pos ⟨hT1, by simpa using hT2⟩]

theorem matchIdPart_shape {ds T : List Char} (hds1 : ds ≠ [])
    (hds2 : ∀ c ∈ ds, c.isDigit) (hT1 : T ≠ []) (hT2 : ∀ c ∈ T, c ≠ '\n') :
    matchIdPart (ds ++ (lc "] " ++ T)) = some (ds, T) := by
  have htw : (ds ++ (lc "] " ++ T)).takeWhile Char.isDigit = ds := by
    rw [takeWhile_append_of_all hds2,
      show lc "] " ++ T = ']' :: (' ' :: T) from rfl,
      takeWhile_cons_neg (by decide)]
    simp
  rw [matchIdPart, htw, if_pos (by simpa using hds1), List.drop_left,
    matchTitlePart_shape hT1 hT2]
  rfl

theorem matchStatusPart_shape {st ds T : List Char}
    (hst : st ∈ VALID_STATUS) (hds1 : ds ≠ []) (hds2 : ∀ c ∈ ds, c.isDigit)
    (hT1 : T ≠ []) (hT2 : ∀ c ∈ T, c ≠ '\n') :
    matchStatusPart (st ++ (lc "][" ++ (ds ++ (lc "] " ++ T)))) = some (st, ds, T) := by
  have htw : (st ++ (lc "][" ++ (ds ++ (lc "] " ++ T)))).takeWhile (· ≠ ']') = st := by
    rw [takeWhile_append_of_all (fun c hc => by
        simp only [decide_eq_true_eq]
        intro he
        exact status_no_rbracket hst (he ▸ hc)),
      show lc "][" ++ (ds ++ (lc "] " ++ T)) = ']' :: ('[' :: (ds ++ (lc "] " ++ T))) from rfl,
      takeWhile_cons_neg (by simp)]
    simp
  rw [matchStatusPart, htw, if_pos hst, List.drop_left,
    if_pos (List.isPrefixOf_iff_prefix.mpr (List.prefix_append _ _)),
    List.drop_left' (by decide : (lc "][").length = 2),
    matchIdPart_shape hds1 hds2 hT1 hT2]
  rfl

/-- `ITEM_RE.fullmatch` accepts exactly the rendered line shape and returns
its three capture groups. -/
theorem matchItemLine_shape {st ds T : List Char}
    (hst : st ∈ VALID_STATUS) (hds1 : ds ≠ []) (hds2 : ∀ c ∈ ds, c.isDigit)
    (hT1 : T ≠ []) (hT2 : ∀ c ∈ T, c ≠ '\n') :
    matchItemLine (lc "- [" ++ (st ++ (lc "][" ++ (ds ++ (lc "] " ++ T))))) =
      some (st, ds, T) := by
  have hpre : (lc "- [").isPrefixOf
      (lc "- [" ++ (st ++ (lc "][" ++ (ds ++ (lc "] " ++ T))))) = true :=
    List.isPrefixOf_iff_prefix.mpr (List.prefix_append _ _)
  rw [matchItemLine, if_pos hpre, List.drop_left' (by decide : (lc "- [").length = 3),
    matchStatusPart_shape hst hds1 hds2 hT1 hT2]

/-- Validity of one plan item for the round-trip law: a legal status and a
title that, after trimming, is non-empty, single-line and does not contain
the closing marker. -/
def GoodItem (it : PlanItem0) : Prop :=
  it.status ∈ VALID_STATUS ∧ pyStrip it.title ≠ [] ∧
    (∀ c ∈ pyStrip it.title, isLineBreak c = false) ∧
    ¬ (lc "</PLAN>") <:+: pyStrip it.title

instance (it : PlanItem0) : Decidable (GoodItem it) := by
  unfold GoodItem
  infer_instance

/-- The list of rendered body lines, ids counted from `idx`. -/
def renderedLines (idx : Nat) : List PlanItem0 → List (List Char)
  | [] => []
  | it :: rest => renderLine idx it :: renderedLines (idx + 1) rest

theorem renderLinesGo_ok {items : List PlanItem0} (idx : Nat)
    (h : ∀ it ∈ items, it.status ∈ VALID_STATUS ∧ pyStrip it.title ≠ []) :
    renderLinesGo idx items = .ok (renderedLines idx items) := by
  induction items generalizing idx with
  | nil => rfl
  | cons it rest ih =>
    have h1 := h it (by simp)
    rw [renderLinesGo, if_neg (by simp [h1.1]), if_neg (by simp [h1.2]),
      ih _ (fun x hx => h x (by simp [hx]))]
    rfl

theorem renderLine_assoc (idx : Nat) (it : PlanItem0) : renderLine idx it =
    lc "- [" ++ (it.status ++ (lc "][" ++ (natDigits idx ++ (lc "] " ++ pyStrip it.title)))) := by
  simp [renderLine, List.append_assoc]

theorem noBreak_append {u v : List Char} (hu : ∀ c ∈ u, isLineBreak c = false)
    (hv : ∀ c ∈ v, isLineBreak c = false) : ∀ c ∈ u ++ v, isLineBreak c = false := by
  intro c hc
  rcases List.mem_append.mp hc with h | h
  exacts [hu c h, hv c h]

theorem natDigits_no_break (n : Nat) : ∀ c ∈ natDigits n, isLineBreak c = false :=
  fun c hc => by
    have h2 := natDigits_mem_list hc
    fin_cases h2 <;> decide

theorem natDigits_no_lt (n : Nat) : '<' ∉ natDigits n :=
  fun h => absurd (natDigits_mem_list h) (by decide)

theorem renderLine_head (idx : Nat) (it : PlanItem0) :
    ∃ t, renderLine idx it = '-' :: t := by
  rw [renderLine_assoc]
  exact ⟨_, rfl⟩

theorem renderLine_last {it : PlanItem0} (idx : Nat) (h : pyStrip it.title ≠ []) :
    ∃ c t, renderLine idx it = t ++ [c] ∧ ¬ pyIsSpace c := by
  obtain ⟨c, t, he, hc⟩ := pyStrip_last_not h
  refine ⟨c, lc "- [" ++ it.status ++ lc "][" ++ natDigits idx ++ lc "] " ++ t, ?_, hc⟩
  rw [renderLine, he, ← List.append_assoc]

theorem renderLine_no_break {it : PlanItem0} (idx : Nat) (g : GoodItem it) :
    ∀ c ∈ renderLine idx it, isLineBreak c = false := by
  rw [renderLine_assoc]
  refine noBreak_append (by decide) (noBreak_append (status_no_break g.1)
    (noBreak_append (by decide) (noBreak_append (natDigits_no_break idx)
      (noBreak_append (by decide) g.2.2.1))))

theorem renderLine_no_close {it : PlanItem0} (idx : Nat) (g : GoodItem it) :
    ¬ (lc "</PLAN>") <:+: renderLine idx it := by
  rw [renderLine_assoc]
  have hp : (lc "</PLAN>").head? = some '<' := rfl
  refine not_infix_append_of_head hp (by decide) ?_
  refine not_infix_append_of_head hp (status_no_lt g.1) ?_
  refine not_infix_append_of_head hp (by decide) ?_
  refine not_infix_append_of_head hp (natDigits_no_lt idx) ?_
  exact not_infix_append_of_head hp (by decide) g.2.2.2

theorem renderedLines_props {items : List PlanItem0} {idx : Nat}
    (hg : ∀ it ∈ items, GoodItem it) :
    ∀ l ∈ renderedLines idx items,
      (∃ t, l = '-' :: t) ∧ (∃ c t, l = t ++ [c] ∧ ¬ pyIsSpace c) ∧
      (∀ c ∈ l, isLineBreak c = false) ∧ ¬ (lc "</PLAN>") <:+: l := by
  induction items generalizing idx with
  | nil => simp [renderedLines]
  | cons it rest ih =>
    intro l hl
    rw [renderedLines] at hl
    rcases List.mem_cons.mp hl with rfl | h2
    · have g := hg it (by simp)
      exact ⟨renderLine_head idx it, renderLine_last idx g.2.1,
        renderLine_no_break idx g, renderLine_no_close idx g⟩
    · exact ih (fun x hx => hg x (by simp [hx])) l h2

theorem joinNl_cons_eq (l : List Char) (rest : List (List Char)) :
    ∃ z, joinNl (l :: rest) = l ++ z := by
  cases rest with
  | nil => exact ⟨[], by simp [joinNl]⟩
  | cons l2 ls => exact ⟨'\n' :: joinNl (l2 :: ls), rfl⟩

theorem joinNl_last_not {lines : List (List Char)} (hne : lines ≠ [])
    (h : ∀ l ∈ lines, ∃ c t, l = t ++ [c] ∧ ¬ pyIsSpace c) :
    ∃ c t, joinNl lines = t ++ [c] ∧ ¬ pyIsSpace c := by
  induction lines with
  | nil => exact absurd rfl hne
  | cons l rest ih =>
    cases rest with
    | nil =>
      obtain ⟨c, t, he, hc⟩ := h l (by simp)
      exact ⟨c, t, by simpa [joinNl] using he, hc⟩
    | cons l2 ls =>
      obtain ⟨c, t, he, hc⟩ := ih (List.cons_ne_nil _ _) (fun x hx => h x (by simp [hx]))
      refine ⟨c, l ++ '\n' :: t, ?_, hc⟩
      have hj : joinNl (l :: l2 :: ls) = l ++ '\n' :: joinNl (l2 :: ls) := rfl
      rw [hj, he]
      simp

theorem joinNl_no_close {lines : List (List Char)}
    (h : ∀ l ∈ lines, ¬ (lc "</PLAN>") <:+: l) :
    ¬ (lc "</PLAN>") <:+: joinNl lines := by
  induction lines with
  | nil => decide
  | cons l rest ih =>
    cases rest with
    | nil => simpa [joinNl] using h l (by simp)
    | cons l2 ls =>
      have hj : joinNl (l :: l2 :: ls) = l ++ '\n' :: joinNl (l2 :: ls) := rfl
      rw [hj]
      exact not_infix_append_sep (by decide) (by decide) (h l (by simp))
        (ih (fun x hx => h x (by simp [hx])))

theorem parsePlanLines_rendered {items : List PlanItem0} (idx : Nat)
    (hg : ∀ it ∈ items, GoodItem it) :
    parsePlanLines (renderedLines idx items) idx =
      .ok (items.map fun it => ⟨it.status, pyStrip it.title⟩) := by
  induction items generalizing idx with
  | nil => rfl
  | cons it rest ih =>
    have g := hg it (by simp)
    have hline : pyStrip (renderLine idx it) = renderLine idx it := by
      refine pyStrip_no_strip ?_ (renderLine_last idx g.2.1)
      obtain ⟨t, ht⟩ := renderLine_head idx it
      exact ⟨'-', t, ht, by decide⟩
    have hne : renderLine idx it ≠ [] := by
      obtain ⟨t, ht⟩ := renderLine_head idx it
      simp [ht]
    have hmatch : matchItemLine (renderLine idx it) =
        some (it.status, natDigits idx, pyStrip it.title) := by
      rw [renderLine_assoc]
      exact matchItemLine_shape g.1 (natDigits_ne_nil idx) (fun c hc => natDigits_isDigit hc)
        g.2.1 (fun c hc h => by
          have := g.2.2.1 c hc
          rw [h] at this
          simp [isLineBreak] at this)
    have ih2 := ih (idx + 1) (fun x hx => hg x (by simp [hx]))
    rw [renderedLines]
    simp only [parsePlanLines, hline, if_neg hne, hmatch, digitsVal_natDigits,
      pyStrip_idem, ih2]
    simp [g.2.1, Except.map]

/-- Core round-trip law: rendering a list of good items succeeds and
parsing the rendered text returns exactly the items with trimmed titles. -/
theorem parse_render_roundtrip {items : List PlanItem0}
    (hg : ∀ it ∈ items, GoodItem it) :
    ∃ text, render_plan_block items = .ok text ∧
      parse_plan text = .ok (items.map fun it => ⟨it.status, pyStrip it.title⟩) := by
  cases hi : items with
  | nil =>
    refine ⟨lc "<PLAN>\n</PLAN>", by rw [render_plan_block, if_pos rfl], ?_⟩
    decide
  | cons it0 rest =>
    subst hi
    have hrender : render_plan_block (it0 :: rest) =
        .ok (lc "<PLAN>\n" ++ joinNl (renderedLines 1 (it0 :: rest)) ++ lc "\n</PLAN>") := by
      rw [render_plan_block, if_neg (by simp),
        renderLinesGo_ok 1 (fun x hx => ⟨(hg x hx).1, (hg x hx).2.1⟩)]
      rfl
    refine ⟨_, hrender, ?_⟩
    have hprops := @renderedLines_props _ 1 hg
    have hlines_ne : renderedLines 1 (it0 :: rest) ≠ [] := by
      rw [renderedLines]
      simp
    -- Split at the opening marker.
    have hshape1 : lc "<PLAN>\n" ++ joinNl (renderedLines 1 (it0 :: rest)) ++ lc "\n</PLAN>" =
        lc "<PLAN>" ++ ('\n' :: (joinNl (renderedLines 1 (it0 :: rest)) ++ lc "\n</PLAN>")) := by
      simp [List.append_assoc]
      rfl
    have hsplit1 : splitFirst (lc "<PLAN>")
        (lc "<PLAN>\n" ++ joinNl (renderedLines 1 (it0 :: rest)) ++ lc "\n</PLAN>") =
        some ([], '\n' :: (joinNl (renderedLines 1 (it0 :: rest)) ++ lc "\n</PLAN>")) := by
      rw [hshape1, splitFirst_at_head (List.prefix_append _ _), List.drop_left]
    -- Split at the closing marker.
    have hshape2 : '\n' :: (joinNl (renderedLines 1 (it0 :: rest)) ++ lc "\n</PLAN>") =
        ('\n' :: (joinNl (renderedLines 1 (it0 :: rest)) ++ ['\n'])) ++ lc "</PLAN>" ++ [] := by
      simp [List.append_assoc]
      rfl
    have hnoclose : ¬ (lc "</PLAN>") <:+: joinNl (renderedLines 1 (it0 :: rest)) :=
      joinNl_no_close (fun l hl => (hprops l hl).2.2.2)
    have hno : ¬ (lc "</PLAN>") <:+:
        (('\n' :: (joinNl (renderedLines 1 (it0 :: rest)) ++ ['\n'])) ++
          (lc "</PLAN>").dropLast) := by
      have hp : (lc "</PLAN>").head? = some '<' := rfl
      have hshape3 : ('\n' :: (joinNl (renderedLines 1 (it0 :: rest)) ++ ['\n'])) ++
          (lc "</PLAN>").dropLast =
          ['\n'] ++ (joinNl (renderedLines 1 (it0 :: rest)) ++ ('\n' :: lc "</PLAN")) := by
        simp [List.append_assoc]
        rfl
      rw [hshape3]
      refine not_infix_append_of_head hp (by decide) ?_
      exact not_infix_append_sep (by decide) (by decide) hnoclose (by decide)
    have hsplit2 : splitFirst (lc "</PLAN>")
        ('\n' :: (joinNl (renderedLines 1 (it0 :: rest)) ++ lc "\n</PLAN>")) =
        some ('\n' :: (joinNl (renderedLines 1 (it0 :: rest)) ++ ['\n']), []) := by
      rw [hshape2]
      exact splitFirst_append_of_no_early (by decide) hno
    -- Strip the whitespace envelope of the regex group.
    have hstrip : pyStrip ('\n' :: (joinNl (renderedLines 1 (it0 :: rest)) ++ ['\n'])) =
        joinNl (renderedLines 1 (it0 :: rest)) := by
      have hshape4 : '\n' :: (joinNl (renderedLines 1 (it0 :: rest)) ++ ['\n']) =
          ['\n'] ++ joinNl (renderedLines 1 (it0 :: rest)) ++ ['\n'] := by simp
      rw [hshape4]
      refine pyStrip_sandwich (by decide) (by decide) ?_ ?_
      · obtain ⟨z, hz⟩ := joinNl_cons_eq (renderLine 1 it0) (renderedLines 2 rest)
        obtain ⟨t, ht⟩ := renderLine_head 1 it0
        rw [renderedLines]
        refine ⟨'-', t ++ z, ?_, by decide⟩
        rw [show renderedLines (1 + 1) rest = renderedLines 2 rest by norm_num, ] at hz ⊢
        rw [hz, ht]
        simp
      · exact joinNl_last_not hlines_ne (fun l hl => (hprops l hl).2.1)
    have hbody_ne : joinNl (renderedLines 1 (it0 :: rest)) ≠ [] := by
      obtain ⟨z, hz⟩ := joinNl_cons_eq (renderLine 1 it0) (renderedLines (1 + 1) rest)
      rw [renderedLines, hz]
      obtain ⟨t, ht⟩ := renderLine_head 1 it0
      simp [ht]
    have hsplitlines : pySplitlines (joinNl (renderedLines 1 (it0 :: rest))) =
        renderedLines 1 (it0 :: rest) := by
      refine pySplitlines_joinNl hlines_ne (fun l hl => ?_)
      obtain ⟨⟨t, ht⟩, _, hnb, _⟩ := hprops l hl
      exact ⟨by simp [ht], hnb⟩
    simp only [parse_plan, hsplit1, hsplit2, hstrip, hsplitlines]
    rw [if_neg hbody_ne]
    exact parsePlanLines_rendered 1 hg

theorem matchItemLine_inv {l st ds t : List Char}
    (h : matchItemLine l = some (st, ds, t)) :
    st ∈ VALID_STATUS ∧ t ≠ [] ∧ t <:+ l := by
  rw [matchItemLine] at h
  split at h
  · rename_i hpre
    rw [matchStatusPart] at h
    split at h
    · rename_i hst
      split at h
      · rename_i hbr
        rcases Option.map_eq_some'.mp h with ⟨⟨a, b⟩, hid, hab⟩
        rw [matchIdPart] at hid
        split at hid
        · rename_i hds
          rcases Option.map_eq_some'.mp hid with ⟨tt, htt, htt2⟩
          rw [matchTitlePart] at htt
          split at htt
          · rename_i hpre2
            split at htt
            · rename_i hcond
              simp only [Option.some.injEq] at htt
              simp only [Option.some.injEq, Prod.mk.injEq] at hab htt2
              obtain ⟨rfl, rfl⟩ := htt2
              obtain ⟨rfl, rfl, rfl⟩ := hab
              subst htt
              refine ⟨hst, hcond.1, ?_⟩
              refine List.IsSuffix.trans (List.drop_suffix _ _) ?_
              refine List.IsSuffix.trans (List.drop_suffix _ _) ?_
              refine List.IsSuffix.trans (List.drop_suffix _ _) ?_
              refine List.IsSuffix.trans (List.drop_suffix _ _) ?_
              exact List.drop_suffix _ _
            · exact absurd htt (by simp)
          · exact absurd htt (by simp)
        · exact absurd hid (by simp)
      · exact absurd h (by simp)
    · exact absurd h (by simp)
  · exact absurd h (by simp)

theorem parsePlanLines_good {lines : List (List Char)} {e : Nat} {items : List PlanItem0}
    (h : parsePlanLines lines e = .ok items) :
    ∀ it ∈ items, it.status ∈ VALID_STATUS ∧ it.title ≠ [] ∧
      pyStrip it.title = it.title ∧ ∃ raw ∈ lines, it.title <:+: raw := by
  induction lines generalizing e items with
  | nil =>
    rw [parsePlanLines] at h
    simp only [Except.ok.injEq] at h
    subst h
    simp
  | cons raw rest ih =>
    rw [parsePlanLines] at h
    split at h
    · intro it hit
      obtain ⟨h1, h2, h3, rw2, hrw2, h4⟩ := ih h it hit
      exact ⟨h1, h2, h3, rw2, by simp [hrw2], h4⟩
    · rcases hm : matchItemLine (pyStrip raw) with _ | ⟨st, ds, t⟩
      · simp only [hm] at h
        exact absurd h (by simp)
      · simp only [hm] at h
        split at h
        · exact absurd h (by simp)
        · split at h
          · exact absurd h (by simp)
          · rename_i hts
            rcases hrec : parsePlanLines rest (e + 1) with err | tl
            · rw [hrec] at h
              exact absurd h (by simp [Except.map])
            · rw [hrec] at h
              simp only [Except.map, Except.ok.injEq] at h
              subst h
              intro it hit
              rcases List.mem_cons.mp hit with rfl | h5
              · obtain ⟨hst, htne, hsuf⟩ := matchItemLine_inv hm
                refine ⟨hst, hts, pyStrip_idem t, raw, by simp, ?_⟩
                calc pyStrip t <:+: t := pyStrip_infix t
                  _ <:+: pyStrip raw := hsuf.isInfix
                  _ <:+: raw := pyStrip_infix raw
              · obtain ⟨h1, h2, h3, rw2, hrw2, h4⟩ := ih hrec it h5
                exact ⟨h1, h2, h3, rw2, by simp [hrw2], h4⟩

/-- Every item produced by `parse_plan` is good: valid status and a
non-empty, already-trimmed, single-line title with no closing marker. -/
theorem parse_plan_good {text : List Char} {items : List PlanItem0}
    (h : parse_plan text = .ok items) :
    ∀ it ∈ items, GoodItem it ∧ pyStrip it.title = it.title := by
  rcases h1 : splitFirst (lc "<PLAN>") text with _ | ⟨p1, afterOpen⟩
  · simp only [parse_plan, h1] at h
    exact absurd h (by simp)
  rcases h2 : splitFirst (lc "</PLAN>") afterOpen with _ | ⟨between, p2⟩
  · simp only [parse_plan, h1, h2] at h
    exact absurd h (by simp)
  simp only [parse_plan, h1, h2] at h
  have hno : ¬ (lc "</PLAN>") <:+: between :=
    splitFirst_before_no_infix (by decide) h2
  split at h
  · simp only [Except.ok.injEq] at h
    subst h
    simp
  · intro it hit
    obtain ⟨hst, htne, hstrip, raw, hraw, hinf⟩ := parsePlanLines_good h it hit
    have hbreak : ∀ c ∈ it.title, isLineBreak c = false := by
      intro c hc
      have hrawnb := pySplitlinesGo_mem_no_break (pyStrip between).length
        (pyStrip between) [] (by simp) hraw
      exact hrawnb c (hinf.subset hc)
    have hnoc : ¬ (lc "</PLAN>") <:+: it.title := by
      intro hcl
      apply hno
      calc (lc "</PLAN>") <:+: it.title := hcl
        _ <:+: raw := hinf
        _ <:+: pyStrip between :=
          pySplitlinesGo_mem_infix (pyStrip between).length (pyStrip between) []
            (by simpa using hraw)
        _ <:+: between := pyStrip_infix between
    refine ⟨⟨hst, by rw [hstrip]; exact htne, ?_, ?_⟩, hstrip⟩
    · rw [hstrip]; exact hbreak
    · rw [hstrip]; exact hnoc

/-! ## Claim C1 -/

/-- C1, counterexample: the item `{status := todo, title := "a\nb"}` is
valid in the claim's sense (legal status, title non-empty after trimming),
renders fine, but parsing the rendered block fails on the dangling line
`b`, so `parsePlan (renderPlan items)` is not the item list. -/
theorem C1_claim_cex :
    render_plan_block [⟨lc "todo", lc "a\nb"⟩] =
      .ok (lc "<PLAN>\n- [todo][1] a\nb\n</PLAN>") ∧
    parse_plan (lc "<PLAN>\n- [todo][1] a\nb\n</PLAN>") =
      .error (.valueError (invalidLineMsg (lc "b"))) ∧
    (render_plan_block [⟨lc "todo", lc "a\nb"⟩]).bind parse_plan ≠
      Except.ok [⟨lc "todo", lc "a\nb"⟩] := by
  refine ⟨by decide, by decide, by decide⟩

/-- C1 (amended): for every list of plan items whose status is one of
`todo/doing/done/aborted` and whose title after trimming is non-empty,
contains no line-boundary character and no `</PLAN>` substring, rendering
succeeds and parsing the rendered text yields exactly the ordered list of
`(status, trimmed title)` pairs (ids reindexed 1..N positionally); in
particular the empty list renders to a block that parses back to the
empty list. -/
theorem C1_roundtrip (items : List PlanItem0) (hg : ∀ it ∈ items, GoodItem it) :
    ∃ text, render_plan_block items = .ok text ∧
      parse_plan text = .ok (items.map fun it => ⟨it.status, pyStrip it.title⟩) :=
  parse_render_roundtrip hg

/-- C1 witness: the amended round-trip at a concrete two-item list, and
the empty list. -/
theorem C1_roundtrip_witness :
    (∃ text, render_plan_block [⟨lc "todo", lc "alpha"⟩, ⟨lc "done", lc " beta "⟩] = .ok text ∧
      parse_plan text = .ok [⟨lc "todo", lc "alpha"⟩, ⟨lc "done", lc "beta"⟩]) ∧
    (∃ text, render_plan_block [] = .ok text ∧ parse_plan text = .ok []) := by
  constructor
  · obtain ⟨text, h1, h2⟩ :=
      C1_roundtrip [⟨lc "todo", lc "alpha"⟩, ⟨lc "done", lc " beta "⟩] (by decide)
    refine ⟨text, h1, ?_⟩
    rw [h2]
    decide
  · obtain ⟨text, h1, h2⟩ := C1_roundtrip [] (by decide)
    exact ⟨text, h1, by rw [h2]; simp⟩

/-! ## Upsert lemmas -/

theorem copyItems_eq (plan : List PlanItem0) :
    (plan.map fun it => (⟨it.status, it.title⟩ : PlanItem0)) = plan := by
  induction plan with
  | nil => rfl
  | cons it rest ih => simp [ih]

theorem pySetIdx_pos {l : List α} {i : Int} {a : α} (h0 : 0 ≤ i) (h1 : i < l.length) :
    pySetIdx l i a = .ok (l.set i.toNat a) := by
  have hnn : ¬ (i < 0) := by omega
  simp only [pySetIdx, pyIdx, if_neg hnn]
  rw [if_pos ⟨h0, h1⟩]

theorem pyDelIdx_pos {l : List α} {i : Int} (h0 : 0 ≤ i) (h1 : i < l.length) :
    pyDelIdx l i = .ok (l.eraseIdx i.toNat) := by
  have hnn : ¬ (i < 0) := by omega
  simp only [pyDelIdx, pyIdx, if_neg hnn]
  rw [if_pos ⟨h0, h1⟩]

theorem upsertGo_all_append {entries : List NormItem} :
    ∀ s : List PlanItem0, (∀ e ∈ entries, e.id = none) →
      upsertGo s entries = .ok (s ++ entries.map fun e => ⟨e.status, e.title⟩) := by
  induction entries with
  | nil => intro s _; simp [upsertGo]
  | cons e rest ih =>
    intro s h
    have ih2 := ih (s ++ [⟨e.status, e.title⟩]) (fun x hx => h x (by simp [hx]))
    simp only [upsertGo, h e (by simp), ih2]
    simp

theorem upsertGo_single_set {s : List PlanItem0} {st ti : List Char} {k : Int}
    (h1 : 1 ≤ k) (h2 : k ≤ s.length) :
    upsertGo s [⟨st, ti, some k⟩] = .ok (s.set (k.toNat - 1) ⟨st, ti⟩) := by
  have hset := @pySetIdx_pos _ s (k - 1) ⟨st, ti⟩ (by omega) (by omega)
  simp only [upsertGo, if_neg (by omega : ¬ (k > (s.length : Int))), hset]
  have : (k - 1).toNat = k.toNat - 1 := by omega
  rw [this]

theorem upsertGo_single_range {s : List PlanItem0} {st ti : List Char} {k : Int}
    (h2 : k > s.length) :
    upsertGo s [⟨st, ti, some k⟩] = .error (.valueError (upsertRangeMsg k s.length)) := by
  simp only [upsertGo, if_pos h2]

/-- Growth and preservation invariant of the upsert loop: with positive
ids the loop only appends (for id-less entries) or overwrites in place,
so the result length is the start length plus the number of id-less
entries, and any position not named by an id keeps its item. -/
theorem upsertGo_invariant {entries : List NormItem} :
    ∀ (s res : List PlanItem0), (∀ e ∈ entries, ∀ k, e.id = some k → 1 ≤ k) →
      upsertGo s entries = .ok res →
      res.length = s.length + (entries.filter (fun e => e.id = none)).length ∧
      ∀ j < s.length, (∀ e ∈ entries, e.id ≠ some ((j : Int) + 1)) →
        res.get? j = s.get? j := by
  induction entries with
  | nil =>
    intro s res _ h
    rw [upsertGo] at h
    simp only [Except.ok.injEq] at h
    subst h
    simp
  | cons e rest ih =>
    intro s res hpos h
    rcases he : e.id with _ | k
    · simp only [upsertGo, he] at h
      obtain ⟨hl, hg⟩ := ih _ res (fun x hx => hpos x (by simp [hx])) h
      constructor
      · rw [hl]
        have hf : (List.filter (fun e => decide (e.id = none)) (e :: rest)).length =
            (List.filter (fun e => decide (e.id = none)) rest).length + 1 := by
          simp [List.filter_cons, he]
        rw [hf]
        simp
        omega
      · intro j hj hne
        rw [hg j (by simp; omega) (fun x hx => hne x (by simp [hx]))]
        exact List.get?_append hj
    · simp only [upsertGo, he] at h
      have hk1 : 1 ≤ k := hpos e (by simp) k he
      split at h
      · exact absurd h (by simp)
      · rename_i hrange
        have hset := @pySetIdx_pos _ s (k - 1)
          (⟨e.status, e.title⟩ : PlanItem0) (by omega) (by omega)
        simp only [hset] at h
        obtain ⟨hl, hg⟩ := ih _ res (fun x hx => hpos x (by simp [hx])) h
        have hlen : (s.set (k - 1).toNat ⟨e.status, e.title⟩).length = s.length :=
          List.length_set _ _ _
        constructor
        · rw [hl, hlen]
          have hf : (List.filter (fun e => decide (e.id = none)) (e :: rest)).length =
              (List.filter (fun e => decide (e.id = none)) rest).length := by
            simp [List.filter_cons, he]
          rw [hf]
        · intro j hj hne
          rw [hg j (by rw [hlen]; exact hj) (fun x hx => hne x (by simp [hx]))]
          have hne2 : (k - 1).toNat ≠ j := by
            have h6 := hne e (by simp)
            rw [he] at h6
            simp only [ne_eq, Option.some.injEq] at h6
            omega
          rw [List.get?_set_ne _ _ hne2]

/-- `_parse_items_json` success yields validated entries: legal status,
trimmed non-empty title, positive id when present. -/
theorem parseItemsGo_good {payload : List RawItem} :
    ∀ (idx : Nat) (seen : List Int) (norm : List NormItem),
      parseItemsGo idx seen payload = .ok norm →
      ∀ e ∈ norm, e.status ∈ VALID_STATUS ∧ pyStrip e.title = e.title ∧ e.title ≠ [] ∧
        ∀ k, e.id = some k → 1 ≤ k := by
  induction payload with
  | nil =>
    intro idx seen norm h
    rw [parseItemsGo] at h
    simp only [Except.ok.injEq] at h
    subst h
    simp
  | cons raw rest ih =>
    intro idx seen norm h
    rw [parseItemsGo] at h
    rcases hs : raw.status with _ | st
    · simp only [hs] at h
      exact absurd h (by simp)
    · simp only [hs] at h
      split at h
      · exact absurd h (by simp)
      · rename_i hst
        rcases ht : raw.title with _ | t
        · simp only [ht] at h
          exact absurd h (by simp)
        · simp only [ht] at h
          split at h
          · exact absurd h (by simp)
          · rename_i htne
            rcases hi : raw.id with _ | i
            · simp only [hi] at h
              rcases hrec : parseItemsGo (idx + 1) seen rest with err | tl
              · simp only [hrec, Except.map] at h
                exact absurd h (by simp)
              · simp only [hrec, Except.map, Except.ok.injEq] at h
                subst h
                intro e hee
                rcases List.mem_cons.mp hee with rfl | h5
                · exact ⟨by simpa using hst, pyStrip_idem t, htne, by simp⟩
                · exact ih _ _ _ hrec e h5
            · simp only [hi] at h
              split at h
              · exact absurd h (by simp)
              · split at h
                · exact absurd h (by simp)
                · rename_i hile hidup
                  rcases hrec : parseItemsGo (idx + 1) (i :: seen) rest with err | tl
                  · simp only [hrec, Except.map] at h
                    exact absurd h (by simp)
                  · simp only [hrec, Except.map, Except.ok.injEq] at h
                    subst h
                    intro e hee
                    rcases List.mem_cons.mp hee with rfl | h5
                    · refine ⟨by simpa using hst, pyStrip_idem t, htne, ?_⟩
                      intro k hk
                      simp only [Option.some.injEq] at hk
                      omega
                    · exact ih _ _ _ hrec e h5

/-- `_parse_items_json` success implies the supplied ids are distinct and
avoid the `seen` set. -/
theorem parseItemsGo_nodup {payload : List RawItem} :
    ∀ (idx : Nat) (seen : List Int) (norm : List NormItem),
      parseItemsGo idx seen payload = .ok norm →
      (norm.filterMap (·.id)).Nodup ∧ ∀ i ∈ norm.filterMap (·.id), i ∉ seen := by
  induction payload with
  | nil =>
    intro idx seen norm h
    rw [parseItemsGo] at h
    simp only [Except.ok.injEq] at h
    subst h
    simp
  | cons raw rest ih =>
    intro idx seen norm h
    rw [parseItemsGo] at h
    rcases hs : raw.status with _ | st
    · simp only [hs] at h
      exact absurd h (by simp)
    · simp only [hs] at h
      split at h
      · exact absurd h (by simp)
      · rcases ht : raw.title with _ | t
        · simp only [ht] at h
          exact absurd h (by simp)
        · simp only [ht] at h
          split at h
          · exact absurd h (by simp)
          · rcases hi : raw.id with _ | i
            · simp only [hi] at h
              rcases hrec : parseItemsGo (idx + 1) seen rest with err | tl
              · simp only [hrec, Except.map] at h
                exact absurd h (by simp)
              · simp only [hrec, Except.map, Except.ok.injEq] at h
                subst h
                obtain ⟨h1, h2⟩ := ih _ _ _ hrec
                constructor
                · simpa using h1
                · simpa using h2
            · simp only [hi] at h
              split at h
              · exact absurd h (by simp)
              · split at h
                · exact absurd h (by simp)
                · rename_i hile hidup
                  rcases hrec : parseItemsGo (idx + 1) (i :: seen) rest with err | tl
                  · simp only [hrec, Except.map] at h
                    exact absurd h (by simp)
                  · simp only [hrec, Except.map, Except.ok.injEq] at h
                    subst h
                    obtain ⟨h1, h2⟩ := ih _ _ _ hrec
                    constructor
                    · simp only [List.filterMap_cons]
                      simp only [List.nodup_cons]
                      refine ⟨fun hin => ?_, h1⟩
                      have h7 := h2 i hin
                      simp at h7
                    · intro x hx
                      simp only [List.filterMap_cons] at hx
                      rcases List.mem_cons.mp hx with rfl | h5
                      · exact hidup
                      · intro hxs
                        exact (h2 x h5) (by simp [hxs])

/-! ## Claim C3 -/

/-- C3, counterexample: the mutation engine accepts the illegal edge
`done → todo` — `mutate_plan_file` applied to a ledger whose only item is
`done` succeeds with an upsert that rewrites it to `todo`, instead of
failing with a transition error.  The mutation engine performs no
transition validation at all. -/
theorem C3_claim_cex :
    mutate_plan_file (some (lc "<PLAN>\n- [done][1] a\n</PLAN>\n"))
      (.upsert [⟨some 1, some (lc "todo"), some (lc "b")⟩]) =
      .ok (lc "<PLAN>\n- [todo][1] b\n</PLAN>\n", lc "<PLAN>\n- [todo][1] b\n</PLAN>") := by
  decide

/-- C3 (amended): the plan mutation engine does not re-validate the
status transition table.  An Upsert entry whose id is in range replaces
the item's status and title unconditionally — for every current plan,
every in-range id and every pair of old/new statuses, with no restriction
relating the new status to the status currently at that position.
Transition legality is enforced only by the orchestration layer
(`transition_plan_item_status`). -/
theorem C3_upsert_unchecked (plan : List PlanItem0) (st ti : List Char) (k : Int)
    (h1 : 1 ≤ k) (h2 : k ≤ (plan.length : Int)) :
    upsert_items plan [⟨st, ti, some k⟩] = .ok (plan.set (k.toNat - 1) ⟨st, ti⟩) := by
  rw [upsert_items, copyItems_eq]
  exact upsertGo_single_set h1 h2

/-- C3 witness: overwriting a terminal `done` item with status `todo`
succeeds. -/
theorem C3_upsert_unchecked_witness :
    upsert_items [⟨lc "done", lc "a"⟩] [⟨lc "todo", lc "b", some 1⟩] =
      .ok [⟨lc "todo", lc "b"⟩] := by
  have h := C3_upsert_unchecked [⟨lc "done", lc "a"⟩] (lc "todo") (lc "b") 1
    (by decide) (by decide)
  rw [h]
  decide

/-! ## Claim C4 -/

/-- C4: upsert semantics.  (i) id-less entries are appended in input
order, so upserting them onto an M-item ledger appends them after the
first M items; (ii) for any mix of entries with positive ids, the result
has length M + (number of id-less entries) and every position of the
first M not named by an id keeps its item; (iii) an entry with id k ≤ M
replaces exactly the item at position k in place; (iv) a supplied id
exceeding the item count fails with the range error naming the id and the
count; (v) a successful `_parse_items_json` call never returns duplicate
ids, and (vi) a payload with a duplicated id fails with the duplicate-id
error. -/
theorem C4_upsert_semantics :
    (∀ (plan : List PlanItem0) (entries : List NormItem), (∀ e ∈ entries, e.id = none) →
      upsert_items plan entries = .ok (plan ++ entries.map fun e => ⟨e.status, e.title⟩)) ∧
    (∀ (plan res : List PlanItem0) (entries : List NormItem),
      (∀ e ∈ entries, ∀ k, e.id = some k → 1 ≤ k) →
      upsert_items plan entries = .ok res →
      res.length = plan.length + (entries.filter (fun e => e.id = none)).length ∧
      ∀ j < plan.length, (∀ e ∈ entries, e.id ≠ some ((j : Int) + 1)) →
        res.get? j = plan.get? j) ∧
    (∀ (plan : List PlanItem0) (st ti : List Char) (k : Int),
      1 ≤ k → k ≤ (plan.length : Int) →
      upsert_items plan [⟨st, ti, some k⟩] = .ok (plan.set (k.toNat - 1) ⟨st, ti⟩)) ∧
    (∀ (plan : List PlanItem0) (st ti : List Char) (k : Int), k > (plan.length : Int) →
      upsert_items plan [⟨st, ti, some k⟩] =
        .error (.valueError (upsertRangeMsg k plan.length))) ∧
    (∀ (payload : List RawItem) (norm : List NormItem),
      parse_items_json payload = .ok norm → (norm.filterMap (·.id)).Nodup) ∧
    parse_items_json [⟨some 1, some (lc "todo"), some (lc "a")⟩,
        ⟨some 1, some (lc "doing"), some (lc "b")⟩] =
      .error (.valueError (dupIdMsg 1)) := by
  refine ⟨?_, ?_, ?_, ?_, ?_, ?_⟩
  · intro plan entries h
    rw [upsert_items, copyItems_eq]
    exact upsertGo_all_append plan h
  · intro plan res entries hpos h
    rw [upsert_items, copyItems_eq] at h
    exact upsertGo_invariant plan res hpos h
  · intro plan st ti k h1 h2
    rw [upsert_items, copyItems_eq]
    exact upsertGo_single_set h1 h2
  · intro plan st ti k h2
    rw [upsert_items, copyItems_eq]
    exact upsertGo_single_range h2
  · intro payload norm h
    rw [parse_items_json] at h
    split at h
    · exact absurd h (by simp)
    · exact (parseItemsGo_nodup 1 [] norm h).1
  · decide

/-- C4 witness: appends grow a 1-item ledger to 3 items, an id-2 entry
overwrites position 2 in place, and id 2 on a 1-item ledger is a range
error. -/
theorem C4_upsert_semantics_witness :
    upsert_items [⟨lc "todo", lc "a"⟩]
        [⟨lc "doing", lc "x", none⟩, ⟨lc "todo", lc "y", none⟩] =
      .ok [⟨lc "todo", lc "a"⟩, ⟨lc "doing", lc "x"⟩, ⟨lc "todo", lc "y"⟩] ∧
    upsert_items [⟨lc "todo", lc "a"⟩, ⟨lc "todo", lc "b"⟩] [⟨lc "doing", lc "z", some 2⟩] =
      .ok [⟨lc "todo", lc "a"⟩, ⟨lc "doing", lc "z"⟩] ∧
    upsert_items [⟨lc "todo", lc "a"⟩] [⟨lc "doing", lc "z", some 2⟩] =
      .error (.valueError (upsertRangeMsg 2 1)) := by
  refine ⟨?_, ?_, ?_⟩
  · have h := C4_upsert_semantics.1 [⟨lc "todo", lc "a"⟩]
      [⟨lc "doing", lc "x", none⟩, ⟨lc "todo", lc "y", none⟩] (by decide)
    rw [h]
    decide
  · have h := C4_upsert_semantics.2.2.1 [⟨lc "todo", lc "a"⟩, ⟨lc "todo", lc "b"⟩]
      (lc "doing") (lc "z") 2 (by decide) (by decide)
    rw [h]
    decide
  · have h := C4_upsert_semantics.2.2.2.1 [⟨lc "todo", lc "a"⟩] (lc "doing") (lc "z") 2
      (by decide)
    rw [h]
    decide

/-! ## Remove lemmas and Claim C5 -/

/-- The items whose 1-based position (counted from `i`) is not in `ids`,
in order — the specification of Remove against the pre-mutation
snapshot. -/
def keepIdx (ids : List Nat) (i : Nat) : List PlanItem0 → List PlanItem0
  | [] => []
  | x :: rest => if i ∈ ids then keepIdx ids (i + 1) rest else x :: keepIdx ids (i + 1) rest

theorem keepIdx_all_small {ids : List Nat} :
    ∀ (i : Nat) (s : List PlanItem0), (∀ w ∈ ids, w < i) → keepIdx ids i s = s := by
  intro i s
  induction s generalizing i with
  | nil => intro _; rfl
  | cons x rest ih =>
    intro h
    rw [keepIdx, if_neg (fun hin => by have := h i hin; omega)]
    rw [ih (i + 1) (fun w hw => by have := h w hw; omega)]

theorem keepIdx_erase {v : Nat} {ds : List Nat} :
    ∀ (s : List PlanItem0) (i : Nat), i ≤ v → v ≤ i + s.length - 1 → 0 < s.length →
      (∀ w ∈ ds, w < v) →
      keepIdx (v :: ds) i s = keepIdx ds i (s.eraseIdx (v - i)) := by
  intro s
  induction s with
  | nil => intro i _ _ h0 _; simp at h0
  | cons x rest ih =>
    intro i hiv hvr _h0 hds
    by_cases hev : i = v
    · subst hev
      rw [keepIdx, if_pos (by simp)]
      have he : (x :: rest).eraseIdx (i - i) = rest := by
        simp [List.eraseIdx]
      rw [he]
      rw [keepIdx_all_small (i + 1) rest (fun w hw => by
        rcases List.mem_cons.mp hw with rfl | h2
        · omega
        · have := hds w h2
          omega)]
      rw [keepIdx_all_small i rest (fun w hw => by have := hds w hw; omega)]
    · have hlt : i < v := by omega
      have hmem : i ∈ v :: ds ↔ i ∈ ds := by
        simp only [List.mem_cons]
        constructor
        · rintro (rfl | h2)
          · omega
          · exact h2
        · exact fun h2 => Or.inr h2
      have he : (x :: rest).eraseIdx (v - i) = x :: rest.eraseIdx (v - i - 1) := by
        have : v - i = (v - i - 1) + 1 := by omega
        rw [this]
        rfl
      rw [he, keepIdx, keepIdx]
      have harith : v - i - 1 = v - (i + 1) := by omega
      have hrest : rest.length > 0 := by
        rcases rest with _ | _
        · simp at hvr
          omega
        · simp
      have hrec := ih (i + 1) (by omega) (by simp at hvr ⊢; omega) hrest hds
      rw [harith, ← hrec]
      by_cases hmem2 : i ∈ ds
      · rw [if_pos (hmem.mpr hmem2), if_pos hmem2]
      · rw [if_neg (fun h2 => hmem2 (hmem.mp h2)), if_neg hmem2]

theorem sortDescInsert_perm (x : Nat) (l : List Nat) :
    (sortDescInsert x l).Perm (x :: l) := by
  induction l with
  | nil => rfl
  | cons y rest ih =>
    rw [sortDescInsert]
    split
    · rfl
    · exact (List.Perm.cons y ih).trans (List.Perm.swap x y rest)

theorem sortDesc_perm (l : List Nat) : (sortDesc l).Perm l := by
  induction l with
  | nil => rfl
  | cons x rest ih =>
    rw [sortDesc, List.foldr_cons]
    exact (sortDescInsert_perm _ _).trans (List.Perm.cons x ih)

theorem sortDescInsert_sorted {x : Nat} {l : List Nat}
    (h : l.Pairwise (· ≥ ·)) : (sortDescInsert x l).Pairwise (· ≥ ·) := by
  induction l with
  | nil => simp [sortDescInsert]
  | cons y rest ih =>
    rw [sortDescInsert]
    split
    · rename_i hxy
      refine List.pairwise_cons.mpr ⟨?_, h⟩
      intro z hz
      rcases List.mem_cons.mp hz with rfl | h2
      · omega
      · have := (List.pairwise_cons.mp h).1 z h2
        omega
    · rename_i hxy
      have h2 := List.pairwise_cons.mp h
      refine List.pairwise_cons.mpr ⟨?_, ih h2.2⟩
      intro z hz
      have := (sortDescInsert_perm x rest).mem_iff.mp hz
      rcases List.mem_cons.mp this with rfl | h3
      · omega
      · exact h2.1 z h3

theorem sortDesc_sorted (l : List Nat) : (sortDesc l).Pairwise (· ≥ ·) := by
  induction l with
  | nil => simp [sortDesc]
  | cons x rest ih => exact sortDescInsert_sorted ih

theorem removeGo_keepIdx {ds : List Nat} :
    ∀ (s : List PlanItem0), ds.Pairwise (· > ·) → (∀ v ∈ ds, 1 ≤ v ∧ v ≤ s.length) →
      removeGo s ds = .ok (keepIdx ds 1 s) := by
  induction ds with
  | nil =>
    intro s _ _
    rw [removeGo, keepIdx_all_small 1 s (by simp)]
  | cons v ds ih =>
    intro s hsort hb
    have hv := hb v (by simp)
    have hdel := @pyDelIdx_pos _ s ((v : Int) - 1) (by omega) (by omega)
    rw [removeGo]
    simp only [hdel]
    have hds : ∀ w ∈ ds, w < v := fun w hw => (List.pairwise_cons.mp hsort).1 w hw
    have harith : ((v : Int) - 1).toNat = v - 1 := by omega
    rw [harith]
    rw [ih (s.eraseIdx (v - 1)) (List.pairwise_cons.mp hsort).2
      (fun w hw => by
        have h2 := hb w (by simp [hw])
        have h3 := hds w hw
        have h4 : (s.eraseIdx (v - 1)).length = s.length - 1 :=
          List.length_eraseIdx_of_lt (by omega)
        omega)]
    rw [keepIdx_erase s 1 (by omega) (by omega) (by omega) hds]

theorem keepIdx_congr_mem {ids ids2 : List Nat} (h : ∀ p, p ∈ ids ↔ p ∈ ids2) :
    ∀ (i : Nat) (s : List PlanItem0), keepIdx ids i s = keepIdx ids2 i s := by
  intro i s
  induction s generalizing i with
  | nil => rfl
  | cons x rest ih =>
    rw [keepIdx, keepIdx, ih (i + 1)]
    by_cases hm : i ∈ ids
    · rw [if_pos hm, if_pos ((h i).mp hm)]
    · rw [if_neg hm, if_neg (fun h2 => hm ((h i).mpr h2))]

theorem remove_items_keepIdx {plan : List PlanItem0} {ids : List Nat} (hnd : ids.Nodup)
    (hb : ∀ v ∈ ids, 1 ≤ v ∧ v ≤ plan.length) :
    remove_items plan ids = .ok (keepIdx ids 1 plan) := by
  rw [remove_items, copyItems_eq]
  have hfind : ids.find? (fun v => decide (v > plan.length)) = none := by
    rw [List.find?_eq_none]
    intro v hv
    simp only [decide_eq_true_eq]
    have := hb v hv
    omega
  rw [hfind]
  have hsorted : (sortDesc ids).Pairwise (· > ·) := by
    have h1 := sortDesc_sorted ids
    have h2 : (sortDesc ids).Nodup := ((sortDesc_perm ids).nodup_iff).mpr hnd
    have h3 := List.Pairwise.and h1 h2
    refine h3.imp ?_
    rintro a b ⟨hab1, hab2⟩
    omega
  rw [removeGo_keepIdx plan hsorted
    (fun v hv => hb v ((sortDesc_perm ids).mem_iff.mp hv))]
  rw [keepIdx_congr_mem (fun p => (sortDesc_perm ids).mem_iff) 1 plan]

/-- C5: Remove validates every id against the pre-mutation item count,
failing with the range error naming an offending id while deleting
nothing, and otherwise deletes exactly the items whose pre-mutation
1-based position is in the id set (positions resolved against the
snapshot via highest-to-lowest deletion, so earlier deletions never shift
later ids); removing {2,4} from a 5-item ledger keeps former items
1, 3, 5 in order. -/
theorem C5_remove_semantics :
    (∀ (plan : List PlanItem0) (ids : List Nat), ids.Nodup →
      (∀ v ∈ ids, 1 ≤ v ∧ v ≤ plan.length) →
      remove_items plan ids = .ok (keepIdx ids 1 plan)) ∧
    (∀ (plan : List PlanItem0) (ids : List Nat), (∃ v ∈ ids, v > plan.length) →
      ∃ v ∈ ids, v > plan.length ∧
        remove_items plan ids = .error (.valueError (removeRangeMsg v plan.length))) ∧
    (∀ (a b c d e : PlanItem0), remove_items [a, b, c, d, e] [2, 4] = .ok [a, c, e]) := by
  refine ⟨?_, ?_, ?_⟩
  · intro plan ids hnd hb
    exact remove_items_keepIdx hnd hb
  · intro plan ids hex
    rw [remove_items, copyItems_eq]
    rcases hfind : ids.find? (fun v => decide (v > plan.length)) with _ | v
    · rw [List.find?_eq_none] at hfind
      obtain ⟨v, hv1, hv2⟩ := hex
      have := hfind v hv1
      simp only [decide_eq_true_eq] at this
      omega
    · have h1 := List.find?_some hfind
      have h2 := List.mem_of_find?_eq_some hfind
      simp only [decide_eq_true_eq] at h1
      exact ⟨v, h2, h1, by simp only [hfind]⟩
  · intro a b c d e
    rw [remove_items_keepIdx (by decide) (by simp)]
    rfl

/-- C5 witness: removing id 2 from a three-item ledger keeps items 1 and
3, and removing id 7 from a one-item ledger is a range error. -/
theorem C5_remove_semantics_witness :
    remove_items [⟨lc "todo", lc "a"⟩, ⟨lc "doing", lc "b"⟩, ⟨lc "done", lc "c"⟩] [2] =
      .ok [⟨lc "todo", lc "a"⟩, ⟨lc "done", lc "c"⟩] ∧
    remove_items [⟨lc "todo", lc "a"⟩] [7] = .error (.valueError (removeRangeMsg 7 1)) := by
  constructor
  · have h := C5_remove_semantics.1
      [⟨lc "todo", lc "a"⟩, ⟨lc "doing", lc "b"⟩, ⟨lc "done", lc "c"⟩] [2]
      (by decide) (by decide)
    rw [h]
    rfl
  · have h := C5_remove_semantics.2.1 [⟨lc "todo", lc "a"⟩] [7] ⟨7, by decide, by decide⟩
    obtain ⟨v, hv1, hv2, hv3⟩ := h
    have hv : v = 7 := by
      rcases List.mem_singleton.mp hv1 with rfl
      rfl
    subst hv
    simpa using hv3

/-! ## Claim C10 -/

theorem exceptBind_ok (a : α) (f : α → Except ε β) :
    (bind (Except.ok a) f : Except ε β) = f a := rfl

theorem exceptBind_error (e : ε) (f : α → Except ε β) :
    (bind (Except.error e : Except ε α) f : Except ε β) = .error e := rfl

theorem render_ok {items : List PlanItem0}
    (h : ∀ it ∈ items, it.status ∈ VALID_STATUS ∧ pyStrip it.title ≠ []) :
    ∃ text, render_plan_block items = .ok text := by
  cases hi : items with
  | nil => exact ⟨lc "<PLAN>\n</PLAN>", by rw [render_plan_block, if_pos rfl]⟩
  | cons it rest =>
    subst hi
    rw [render_plan_block, if_neg (by simp), renderLinesGo_ok 1 h]
    exact ⟨_, rfl⟩

/-- C10, counterexample: on a missing plan file the call
`Upsert [{status:todo,title:a}, {id:1,status:doing,title:b}]` succeeds —
the id-less entry grows the ledger to one item and the id-1 entry then
overwrites it — although the claim says an Upsert entry carrying any id
fails with RangeError when the file is missing. -/
theorem C10_claim_cex :
    mutate_plan_file none (.upsert [⟨none, some (lc "todo"), some (lc "a")⟩,
      ⟨some 1, some (lc "doing"), some (lc "b")⟩]) =
      .ok (lc "<PLAN>\n- [doing][1] b\n</PLAN>\n", lc "<PLAN>\n- [doing][1] b\n</PLAN>") := by
  decide

/-- C10 (amended): a missing plan file is never itself an error —
`mutate_plan_file` behaves exactly as if the file held the canonical
empty ledger: an Upsert of id-less entries creates the file containing
just those entries reindexed from 1; an Upsert whose first entry carries
an id fails with RangeError against the empty ledger (an id-bearing entry
succeeds only when earlier id-less entries of the same call have already
grown the ledger to reach its id); and a Remove of any positive id fails
with RangeError. -/
theorem C10_missing_file :
    (∀ op, mutate_plan_file none op = mutate_plan_file (some EMPTY_PLAN_FILE) op) ∧
    (∀ (payload : List RawItem) (norm : List NormItem),
      parse_items_json payload = .ok norm → (∀ e ∈ norm, e.id = none) →
      ∃ text, render_plan_block (norm.map fun e => ⟨e.status, e.title⟩) = .ok text ∧
        mutate_plan_file none (.upsert payload) = .ok (text ++ lc "\n", text)) ∧
    (∀ (payload : List RawItem) (norm : List NormItem) (e : NormItem) (k : Int),
      parse_items_json payload = .ok norm → norm.head? = some e → e.id = some k →
      mutate_plan_file none (.upsert payload) =
        .error (.valueError (upsertRangeMsg k 0))) ∧
    (∀ (csv : List Char) (ids : List Nat) (h0 : Nat),
      parse_remove_ids csv = .ok ids → ids.head? = some h0 → 1 ≤ h0 →
      mutate_plan_file none (.remove csv) =
        .error (.valueError (removeRangeMsg h0 0))) := by
  have hparse : parse_plan EMPTY_PLAN_FILE = .ok [] := by decide
  refine ⟨fun op => rfl, ?_, ?_, ?_⟩
  · intro payload norm hp hids
    have hp2 : parseItemsGo 1 [] payload = .ok norm := by
      rw [parse_items_json] at hp
      split at hp
      · exact absurd hp (by simp)
      · exact hp
    have hgood := parseItemsGo_good 1 [] norm hp2
    have hup : upsert_items [] norm = .ok (norm.map fun e => ⟨e.status, e.title⟩) := by
      rw [upsert_items]
      simpa using upsertGo_all_append ([] : List PlanItem0) hids
    have hg2 : ∀ it ∈ norm.map fun e => (⟨e.status, e.title⟩ : PlanItem0),
        it.status ∈ VALID_STATUS ∧ pyStrip it.title ≠ [] := by
      intro it hit
      obtain ⟨e, he, rfl⟩ := List.mem_map.mp hit
      have hg := hgood e he
      exact ⟨hg.1, by rw [hg.2.1]; exact hg.2.2.1⟩
    obtain ⟨text, hrender⟩ := render_ok hg2
    refine ⟨text, hrender, ?_⟩
    simp only [mutate_plan_file, Option.getD, hparse, exceptBind_ok, hp, hup, hrender]
  · intro payload norm e k hp hhead hid
    have hp2 : parseItemsGo 1 [] payload = .ok norm := by
      rw [parse_items_json] at hp
      split at hp
      · exact absurd hp (by simp)
      · exact hp
    have hgood := parseItemsGo_good 1 [] norm hp2
    rcases hn : norm with _ | ⟨e0, tail⟩
    · rw [hn] at hhead
      simp at hhead
    · rw [hn] at hhead
      simp only [List.head?_cons, Option.some.injEq] at hhead
      have hid0 : e0.id = some k := by rw [hhead]; exact hid
      have hk1 : 1 ≤ k :=
        (hgood e0 (by rw [hn]; exact List.mem_cons_self e0 tail)).2.2.2 k hid0
      have hup : upsert_items [] (e0 :: tail) =
          .error (.valueError (upsertRangeMsg k 0)) := by
        rw [upsert_items]
        simp only [List.map_nil, upsertGo, hid0]
        rw [if_pos (by simp only [List.length_nil, Int.natCast_zero]; omega)]
        rfl
      simp only [mutate_plan_file, Option.getD, hparse, exceptBind_ok, hp, hn, hup,
        exceptBind_error]
  · intro csv ids h0 hr hhead hpos
    rcases hi : ids with _ | ⟨v, tail⟩
    · rw [hi] at hhead
      simp at hhead
    · rw [hi] at hhead
      simp only [List.head?_cons, Option.some.injEq] at hhead
      have hpos2 : 1 ≤ v := by rw [hhead]; exact hpos
      have hrem : remove_items [] (v :: tail) =
          .error (.valueError (removeRangeMsg v 0)) := by
        rw [remove_items]
        simp only [List.map_nil, List.length_nil]
        rw [List.find?_cons_of_pos _ (by simpa using hpos2)]
      rw [hhead] at hrem
      simp only [mutate_plan_file, Option.getD, hparse, exceptBind_ok, hr, hi, hhead, hrem,
        exceptBind_error]

/-- C10 witness: a missing file equals the empty ledger for a Remove op;
an id-less Upsert creates the canonical file; a leading id-bearing entry
and a Remove both fail with RangeError. -/
theorem C10_missing_file_witness :
    mutate_plan_file none (.remove (lc "1")) =
      mutate_plan_file (some EMPTY_PLAN_FILE) (.remove (lc "1")) ∧
    mutate_plan_file none (.upsert [⟨none, some (lc "todo"), some (lc "a")⟩]) =
      .ok (lc "<PLAN>\n- [todo][1] a\n</PLAN>\n", lc "<PLAN>\n- [todo][1] a\n</PLAN>") ∧
    mutate_plan_file none (.upsert [⟨some 1, some (lc "todo"), some (lc "a")⟩]) =
      .error (.valueError (upsertRangeMsg 1 0)) ∧
    mutate_plan_file none (.remove (lc "1")) = .error (.valueError (removeRangeMsg 1 0)) := by
  refine ⟨C10_missing_file.1 (.remove (lc "1")), ?_, ?_, ?_⟩
  · obtain ⟨text, h1, h2⟩ := C10_missing_file.2.1 [⟨none, some (lc "todo"), some (lc "a")⟩]
      [⟨lc "todo", lc "a", none⟩] (by decide) (by decide)
    have ht : text = lc "<PLAN>\n- [todo][1] a\n</PLAN>" := by
      have h3 : render_plan_block [⟨lc "todo", lc "a"⟩] =
          .ok (lc "<PLAN>\n- [todo][1] a\n</PLAN>") := by decide
      have h4 := h1.symm.trans h3
      simpa using h4
    rw [ht] at h2
    exact h2
  · exact C10_missing_file.2.2.1 [⟨some 1, some (lc "todo"), some (lc "a")⟩]
      [⟨lc "todo", lc "a", some 1⟩] ⟨lc "todo", lc "a", some 1⟩ 1 (by decide) rfl rfl
  · exact C10_missing_file.2.2.2 (lc "1") [1] 1 (by decide) rfl (by decide)

/-! ## Claim C2 -/

theorem specLegalEdge_iff {cur toSt : List Char} :
    specLegalEdge cur toSt ↔ toSt ∈ STATUS_TRANSITIONS cur := by
  constructor
  · intro h
    rcases h with ⟨hc, ht⟩ | ⟨hc, ht⟩ | ⟨hc, ht⟩ <;> subst hc <;> subst ht <;> decide
  · intro h
    rw [STATUS_TRANSITIONS] at h
    split at h
    · rename_i hc
      rcases List.mem_singleton.mp h with rfl
      exact Or.inl ⟨hc, rfl⟩
    · split at h
      · rename_i hc1 hc
        rcases List.mem_cons.mp h with rfl | h2
        · exact Or.inr (Or.inl ⟨hc, rfl⟩)
        · rcases List.mem_singleton.mp h2 with rfl
          exact Or.inr (Or.inr ⟨hc, rfl⟩)
      · simp at h

theorem attachIds_length (l : List PlanItem0) : (attachIds l).length = l.length := by
  simp [attachIds]

theorem attachIds_get (l : List PlanItem0) (n : Nat) :
    (attachIds l).get? n = (l.get? n).map fun x => ⟨n + 1, x.title, x.status⟩ := by
  rw [attachIds, List.get?_map, List.get?_enum]
  cases l.get? n <;> rfl

theorem find_item_attach {items0 : List PlanItem0} {item_id : Int} {it : PlanItem0}
    (h1 : 1 ≤ item_id) (h2 : item_id ≤ (items0.length : Int))
    (hit : items0.get? (item_id.toNat - 1) = some it) :
    find_item (attachIds items0) item_id = .ok ⟨item_id.toNat, it.title, it.status⟩ := by
  rw [find_item, if_neg (by omega), if_neg (by rw [attachIds_length]; omega)]
  rw [attachIds_get, hit]
  simp only [Option.map_some']
  rw [show item_id.toNat - 1 + 1 = item_id.toNat from by omega]

theorem parse_plan_items_attach {text : List Char} {items : List PlanItem0}
    (h : parse_plan text = .ok items) :
    parse_plan_items text = .ok (attachIds items) := by
  rw [parse_plan_items, h]
  rfl

/-- C2: over any parsed ledger, `transition_plan_item_status` on an
existing item succeeds exactly on the spec's legal edges todo→doing,
doing→done, doing→aborted: on any other requested edge it fails with the
ValueError naming the item id and the attempted edge, and on a legal edge
it rewrites the item's status in place and returns the reindexed items
and the new file content. -/
theorem C2_transition_validator (plan_file : List Char) (items0 : List PlanItem0)
    (item_id : Int) (to_status : List Char) (it : PlanItem0)
    (hparse : parse_plan plan_file = .ok items0)
    (h1 : 1 ≤ item_id) (h2 : item_id ≤ (items0.length : Int))
    (hit : items0.get? (item_id.toNat - 1) = some it) :
    (¬ specLegalEdge it.status to_status →
      transition_plan_item_status plan_file item_id to_status =
        .error (.valueError (transitionMsg item_id it.status to_status))) ∧
    (specLegalEdge it.status to_status →
      ∃ text,
        render_plan_block (items0.set (item_id.toNat - 1) ⟨to_status, it.title⟩) = .ok text ∧
        transition_plan_item_status plan_file item_id to_status =
          .ok (attachIds (items0.set (item_id.toNat - 1) ⟨to_status, it.title⟩),
            text ++ lc "\n")) := by
  have hpi := parse_plan_items_attach hparse
  have hfind := find_item_attach h1 h2 hit
  have hg0 := parse_plan_good hparse
  have hitmem : it ∈ items0 := List.get?_mem hit
  have hgit := hg0 it hitmem
  constructor
  · intro hns
    have hnm : to_status ∉ STATUS_TRANSITIONS it.status := fun hm =>
      hns (specLegalEdge_iff.mpr hm)
    simp only [transition_plan_item_status, hpi, exceptBind_ok, hfind]
    rw [if_pos hnm]
  · intro hlegal
    have hmem : to_status ∈ STATUS_TRANSITIONS it.status := specLegalEdge_iff.mp hlegal
    have hvalid : to_status ∈ VALID_STATUS := by
      rcases hlegal with ⟨hc, ht⟩ | ⟨hc, ht⟩ | ⟨hc, ht⟩ <;> subst ht <;> decide
    have hpj : parse_items_json [⟨some item_id, some to_status, some it.title⟩] =
        .ok [⟨to_status, it.title, some item_id⟩] := by
      rw [parse_items_json, if_neg (by simp)]
      simp only [parseItemsGo]
      rw [if_neg (not_not_intro hvalid), if_neg hgit.1.2.1,
        if_neg (by omega : ¬ item_id ≤ 0), if_neg (by simp : ¬ item_id ∈ ([] : List Int))]
      simp only [parseItemsGo, Except.map, hgit.2]
    have hup : upsert_items items0 [⟨to_status, it.title, some item_id⟩] =
        .ok (items0.set (item_id.toNat - 1) ⟨to_status, it.title⟩) := by
      rw [upsert_items, copyItems_eq]
      exact upsertGo_single_set h1 h2
    have hg1 : ∀ x ∈ items0.set (item_id.toNat - 1) ⟨to_status, it.title⟩,
        GoodItem x ∧ pyStrip x.title = x.title := by
      intro x hx
      rcases List.mem_or_eq_of_mem_set hx with hx0 | rfl
      · exact hg0 x hx0
      · exact ⟨⟨hvalid, hgit.1.2.1, hgit.1.2.2.1, hgit.1.2.2.2⟩, hgit.2⟩
    obtain ⟨text, hrender, hparse1⟩ :=
      parse_render_roundtrip (fun x hx => (hg1 x hx).1)
    have hmap : (items0.set (item_id.toNat - 1) ⟨to_status, it.title⟩).map
        (fun x => (⟨x.status, pyStrip x.title⟩ : PlanItem0)) =
        items0.set (item_id.toNat - 1) ⟨to_status, it.title⟩ :=
      (List.map_congr_left fun x hx => by rw [(hg1 x hx).2]; exact rfl).trans
        (List.map_id _)
    rw [hmap] at hparse1
    have hmut : mutate_plan_file (some plan_file)
        (.upsert [⟨some item_id, some to_status, some it.title⟩]) =
        .ok (text ++ lc "\n", text) := by
      simp only [mutate_plan_file, Option.getD, hparse, exceptBind_ok, hpj, hup, hrender]
    have hpi1 := parse_plan_items_attach hparse1
    have hget1 : (items0.set (item_id.toNat - 1) ⟨to_status, it.title⟩).get?
        (item_id.toNat - 1) = some ⟨to_status, it.title⟩ := by
      apply List.get?_set_eq_of_lt
      have := List.get?_eq_some.mp hit
      omega
    refine ⟨text, hrender, ?_⟩
    simp only [transition_plan_item_status, hpi, exceptBind_ok, hfind]
    rw [if_neg (not_not_intro hmem)]
    simp only [hmut, exceptBind_ok, hpi1, attachIds_get, hget1, Option.map_some']
    rw [if_neg (not_not_intro rfl)]

/-- C2 witness: in a one-item ledger the terminal edge done→doing fails
with the exact transition error, and todo→doing succeeds, rewriting the
status in place. -/
theorem C2_transition_validator_witness :
    transition_plan_item_status (lc "<PLAN>\n- [done][1] a\n</PLAN>\n") 1 (lc "doing") =
      .error (.valueError (transitionMsg 1 (lc "done") (lc "doing"))) ∧
    transition_plan_item_status (lc "<PLAN>\n- [todo][1] a\n</PLAN>\n") 1 (lc "doing") =
      .ok ([⟨1, lc "a", lc "doing"⟩], lc "<PLAN>\n- [doing][1] a\n</PLAN>\n") := by
  constructor
  · exact (C2_transition_validator (lc "<PLAN>\n- [done][1] a\n</PLAN>\n")
      [⟨lc "done", lc "a"⟩] 1 (lc "doing") ⟨lc "done", lc "a"⟩
      (by decide) (by decide) (by decide) rfl).1 (by decide)
  · obtain ⟨text, hr, htr⟩ := (C2_transition_validator (lc "<PLAN>\n- [todo][1] a\n</PLAN>\n")
      [⟨lc "todo", lc "a"⟩] 1 (lc "doing") ⟨lc "todo", lc "a"⟩
      (by decide) (by decide) (by decide) rfl).2 (by decide)
    have ht : text = lc "<PLAN>\n- [doing][1] a\n</PLAN>" := by
      have h3 : render_plan_block
          ([(⟨lc "todo", lc "a"⟩ : PlanItem0)].set ((1 : Int).toNat - 1) ⟨lc "doing", lc "a"⟩) =
          .ok (lc "<PLAN>\n- [doing][1] a\n</PLAN>") := by decide
      have h4 := hr.symm.trans h3
      simpa using h4
    rw [ht] at htr
    exact htr.trans (by decide)

/-! ## Claim C6 -/

/-- C6, counterexample: with content `A`, search `(empty)` and replace `X`
the result is `AX\n` — the replace text (normalized to end in a newline)
is concatenated directly onto the content with no separating newline —
not the claimed `A\nX`, nor `A\nX` after trailing-newline
normalization. -/
theorem C6_claim_cex :
    apply_search_replace (lc "A") (lc "") (lc "X") none = .ok (lc "AX\n") ∧
    lc "AX\n" ≠ lc "A\nX" ∧ lc "AX\n" ≠ ensure_final_newline (lc "A\nX") := by
  refine ⟨?_, by decide, by decide⟩
  decide

/-- C6 (amended): whenever the normalized search text is empty or
whitespace-only, `apply_search_replace` appends: the result is exactly
the existing content concatenated with the normalized replace text (which
`_strip_wrapping` terminates with a newline); no separating newline is
inserted and the content itself is not re-normalized. -/
theorem C6_append_semantics (content search0 replace0 : List Char)
    (path : Option (List Char))
    (h : pyStrip (strip_wrapping search0 path) = []) :
    apply_search_replace content search0 replace0 path =
      .ok (content ++ strip_wrapping replace0 path) := by
  rw [apply_search_replace, if_pos h]

/-- C6 witness: content `A`, search `(empty)`, replace `X` appends,
producing `AX\n`. -/
theorem C6_append_semantics_witness :
    apply_search_replace (lc "A") (lc "") (lc "X") none =
      .ok (lc "A" ++ strip_wrapping (lc "X") none) ∧
    lc "A" ++ strip_wrapping (lc "X") none = lc "AX\n" :=
  ⟨C6_append_semantics (lc "A") (lc "") (lc "X") none (by decide), by decide⟩

/-! ## Claim C8 -/

/-- C8: in the ellipsis-segmented strategy, (1) when search and replace
split into the same number (>1) of segments and some odd-position anchor
segment differs textually, `_replace_with_dots` raises the hard
mismatch `EditMatchError` rather than declining; (2) a non-empty
even-position search chunk whose occurrence count in the current content
is not exactly one makes the chunk loop decline; (3) an error raised by
`_replace_with_dots` propagates out of `apply_search_replace` unchanged
once the exact and indentation-flexible candidates have declined; and
(4) when every strategy declines — `_replace_with_dots` returning
`None` — `apply_search_replace` fails with the generic no-match
`EditMatchError`. -/
theorem C8_dots_semantics :
    (∀ (whole search repl : List Char),
      (split_by_dots search).length = (split_by_dots repl).length →
      (split_by_dots search).length ≠ 1 →
      everyOther false (split_by_dots search) ≠ everyOther false (split_by_dots repl) →
      replace_with_dots whole search repl = .error (.matchError dotsMismatchMsg)) ∧
    (∀ (updated src dst : List Char) (rest : List (List Char × List Char)),
      src ≠ [] → countOcc src updated ≠ 1 →
      dotsLoop updated ((src, dst) :: rest) = none) ∧
    (∀ (content search0 replace0 : List Char) (path : Option (List Char)) (e : PyErr),
      pyStrip (strip_wrapping search0 path) ≠ [] →
      tryCandidate (pySplitlinesKeep (ensure_final_newline content))
        (pySplitlinesKeep (ensure_final_newline (strip_wrapping search0 path)))
        (pySplitlinesKeep (ensure_final_newline (strip_wrapping replace0 path))) = none →
      (secondCandidate (pySplitlinesKeep (ensure_final_newline (strip_wrapping search0 path)))).bind
        (fun cand => tryCandidate (pySplitlinesKeep (ensure_final_newline content)) cand
          (pySplitlinesKeep (ensure_final_newline (strip_wrapping replace0 path)))) = none →
      replace_with_dots (ensure_final_newline content)
        (ensure_final_newline (strip_wrapping search0 path))
        (ensure_final_newline (strip_wrapping replace0 path)) = .error e →
      apply_search_replace content search0 replace0 path = .error e) ∧
    (∀ (content search0 replace0 : List Char) (path : Option (List Char)),
      pyStrip (strip_wrapping search0 path) ≠ [] →
      tryCandidate (pySplitlinesKeep (ensure_final_newline content))
        (pySplitlinesKeep (ensure_final_newline (strip_wrapping search0 path)))
        (pySplitlinesKeep (ensure_final_newline (strip_wrapping replace0 path))) = none →
      (secondCandidate (pySplitlinesKeep (ensure_final_newline (strip_wrapping search0 path)))).bind
        (fun cand => tryCandidate (pySplitlinesKeep (ensure_final_newline content)) cand
          (pySplitlinesKeep (ensure_final_newline (strip_wrapping replace0 path)))) = none →
      replace_with_dots (ensure_final_newline content)
        (ensure_final_newline (strip_wrapping search0 path))
        (ensure_final_newline (strip_wrapping replace0 path)) = .ok none →
      apply_search_replace content search0 replace0 path =
        .error (.matchError noMatchMsg)) := by
  refine ⟨?_, ?_, ?_, ?_⟩
  · intro whole search repl h1 h2 h3
    rw [replace_with_dots, if_neg (by simp [h1]; omega), if_pos h3]
  · intro updated src dst rest h1 h2
    simp only [dotsLoop]
    rw [if_neg (by simp [h1]), if_neg h1, if_pos h2]
  · intro content search0 replace0 path e h0 htc hsc hdots
    rw [apply_search_replace, if_neg h0]
    simp only [htc, hsc, hdots]
  · intro content search0 replace0 path h0 htc hsc hdots
    rw [apply_search_replace, if_neg h0]
    simp only [htc, hsc, hdots]

/-- C8 witness: a whitespace-differing anchor (`...` vs indented `...`)
raises the mismatch error, both directly and through
`apply_search_replace`; a duplicated chunk declines the loop and yields
the generic no-match error. -/
theorem C8_dots_semantics_witness :
    replace_with_dots (lc "q\n") (lc "a\n...\nb\n") (lc "a\n  ...\nc\n") =
      .error (.matchError dotsMismatchMsg) ∧
    dotsLoop (lc "q\n") [(lc "a\n", lc "c\n")] = none ∧
    apply_search_replace (lc "q\n") (lc "a\n...\nb\n") (lc "a\n  ...\nc\n") none =
      .error (.matchError dotsMismatchMsg) ∧
    apply_search_replace (lc "a\na\n") (lc "a\n...\nb\n") (lc "c\n...\nb\n") none =
      .error (.matchError noMatchMsg) := by
  refine ⟨C8_dots_semantics.1 _ _ _ (by decide) (by decide) (by decide),
    C8_dots_semantics.2.1 _ _ _ _ (by decide) (by decide),
    C8_dots_semantics.2.2.1 _ _ _ none (.matchError dotsMismatchMsg)
      (by decide) (by decide) (by decide) (by decide),
    C8_dots_semantics.2.2.2 _ _ _ none
      (by decide) (by decide) (by decide) (by decide)⟩

/-! ## Claim C7 -/

/-- C7, counterexample: with the instruction document

```text
bar.txt
<<<\<<<< SEARCH
x
=======
y
>>>>>>> REPLACE
```

and valid-filename set `{foo.py}`, parsing succeeds and the block's path
is the unvalidated candidate string `bar.txt` taken verbatim — it is not
in the valid set, no filename was resolved earlier in the document, and
no ParseError is raised, contradicting the claim that no fallback beyond
the four listed steps is ever taken. -/
theorem C7_claim_cex :
    parse_edit_blocks (lc "bar.txt\n<<<<<<< SEARCH\nx\n=======\ny\n>>>>>>> REPLACE\n")
      [lc "foo.py"] = .ok [⟨lc "bar.txt", lc "x\n", lc "y\n"⟩] ∧
    (lc "bar.txt") ∉ [lc "foo.py"] := by
  constructor
  · decide
  · decide

/-- C7 (amended): the filename for a SEARCH block is resolved from the
candidates collected from at most the three preceding lines in this
priority order: an exact match in the valid-filename set wins; otherwise
a base-name match returns the matching valid filename; otherwise the
first candidate with a close match at cutoff 0.8 returns that match;
**otherwise the first candidate itself is used verbatim, unvalidated**
(this is where the claim fails — the last-resolved-filename fallback and
the ParseError occur only when the lookback yields no candidate at
all). -/
theorem C7_filename_resolution (valid : List (List Char)) :
    (∀ (lines : List (List Char)),
      collectCands ((lines.drop (lines.length - 3)).reverse) = [] →
      choose_filename lines valid = none) ∧
    (∀ (lines : List (List Char)) (c : List Char) (cs : List (List Char)),
      collectCands ((lines.drop (lines.length - 3)).reverse) = c :: cs →
      ((∀ r, (c :: cs).find? (fun x => decide (x ∈ valid)) = some r →
        choose_filename lines valid = some r) ∧
       ((c :: cs).find? (fun x => decide (x ∈ valid)) = none →
        ∀ r, (c :: cs).findSome?
            (fun x => valid.find? (fun v => decide (x = pathName v))) = some r →
        choose_filename lines valid = some r) ∧
       ((c :: cs).find? (fun x => decide (x ∈ valid)) = none →
        (c :: cs).findSome?
            (fun x => valid.find? (fun v => decide (x = pathName v))) = none →
        ∀ r, (c :: cs).findSome? (fun x => get_close_matches1 x valid) = some r →
        choose_filename lines valid = some r) ∧
       ((c :: cs).find? (fun x => decide (x ∈ valid)) = none →
        (c :: cs).findSome?
            (fun x => valid.find? (fun v => decide (x = pathName v))) = none →
        (c :: cs).findSome? (fun x => get_close_matches1 x valid) = none →
        choose_filename lines valid = some c))) ∧
    (∀ (fuel : Nat) (prev rest : List (List Char)) (l : List Char),
      isSearchMark (pyStrip l) = true →
      choose_filename ((prev.take 3).reverse) valid = none →
      parseBlocksGo valid (fuel + 1) prev (l :: rest) none =
        .error (.parseError (lc "Missing filename before SEARCH block."))) ∧
    (∀ (fuel : Nat) (prev rest : List (List Char)) (l f : List Char)
        (bs : List EditBlock),
      isSearchMark (pyStrip l) = true →
      choose_filename ((prev.take 3).reverse) valid = none →
      parseBlocksGo valid (fuel + 1) prev (l :: rest) (some f) = .ok bs →
      ∃ b bs2, bs = b :: bs2 ∧ b.path = f) := by
  refine ⟨?_, ?_, ?_, ?_⟩
  · intro lines h
    simp only [choose_filename, h]
  · intro lines c cs hc
    refine ⟨?_, ?_, ?_, ?_⟩
    · intro r h1
      simp only [choose_filename, hc, h1]
    · intro h1 r h2
      simp only [choose_filename, hc, h1, h2]
    · intro h1 h2 r h3
      simp only [choose_filename, hc, h1, h2, h3]
    · intro h1 h2 h3
      simp only [choose_filename, hc, h1, h2, h3]
  · intro fuel prev rest l hs hch
    simp only [parseBlocksGo, if_pos hs, hch, Option.none_orElse]
  · intro fuel prev rest l f bs hs hch hok
    simp only [parseBlocksGo, if_pos hs, hch, Option.none_orElse] at hok
    rcases hspan : rest.span fun x => !(isDividerMark (pyStrip x)) with ⟨sb, r1⟩
    simp only [hspan] at hok
    rcases r1 with _ | ⟨d, rest2⟩
    · exact absurd hok (by simp)
    rcases hspan2 : rest2.span fun x =>
        !(isReplaceMark (pyStrip x)) && !(isDividerMark (pyStrip x)) with ⟨rb, r3⟩
    simp only [hspan2] at hok
    rcases r3 with _ | ⟨r, rest4⟩
    · exact absurd hok (by simp)
    rcases hin : parseBlocksGo valid fuel
        (r :: rb.reverse ++ d :: sb.reverse ++ l :: prev) rest4 (some f) with e | bs1
    · simp only [hin, Except.map] at hok
      exact absurd hok (by simp)
    · simp only [hin, Except.map, Except.ok.injEq] at hok
      exact ⟨_, bs1, hok.symm, rfl⟩

/-- C7 witness: an empty lookback resolves nothing; an exact match wins;
with only the non-matching candidate `bar.txt` the stages all fail and
`bar.txt` is returned verbatim; a SEARCH mark with no candidate and no
earlier filename is a ParseError; with an earlier filename `a.py` the
parsed block carries that path. -/
theorem C7_filename_resolution_witness :
    choose_filename [] [lc "foo.py"] = none ∧
    choose_filename [lc "foo.py"] [lc "foo.py"] = some (lc "foo.py") ∧
    choose_filename [lc "bar.txt"] [lc "foo.py"] = some (lc "bar.txt") ∧
    parseBlocksGo [lc "foo.py"] 1 [] [lc "<<<<<<< SEARCH\n"] none =
      .error (.parseError (lc "Missing filename before SEARCH block.")) ∧
    (∃ b bs2, ([⟨lc "a.py", lc "x\n", lc "y\n"⟩] : List EditBlock) = b :: bs2 ∧
      b.path = lc "a.py") := by
  refine ⟨(C7_filename_resolution [lc "foo.py"]).1 [] (by decide),
    (C7_filename_resolution [lc "foo.py"]).2.1 [lc "foo.py"] (lc "foo.py") [] (by decide)
      |>.1 (lc "foo.py") (by decide),
    (C7_filename_resolution [lc "foo.py"]).2.1 [lc "bar.txt"] (lc "bar.txt") [] (by decide)
      |>.2.2.2 (by decide) (by decide) (by decide),
    (C7_filename_resolution [lc "foo.py"]).2.2.1 0 [] [] (lc "<<<<<<< SEARCH\n")
      (by decide) (by decide),
    (C7_filename_resolution [lc "foo.py"]).2.2.2 1 [] [lc "x\n", lc "=======\n",
      lc "y\n", lc ">>>>>>> REPLACE\n"] (lc "<<<<<<< SEARCH\n") (lc "a.py")
      [⟨lc "a.py", lc "x\n", lc "y\n"⟩] (by decide) (by decide) (by decide)⟩

/-! ## Claim C9 -/

theorem fsRead_fsWrite_self (fs : FS) (p c : List Char) :
    fsRead (fsWrite fs p c) p = some c := by
  simp [fsRead, fsWrite, List.lookup]

/-- C9, counterexample: editing the absent target `d/f.txt` with the
non-empty search `x` over an empty workspace fails with the MatchError,
but the filesystem is NOT left untouched: the parent directory `d` has
been created by the `mkdir(parents=True)` that runs before the existence
check. -/
theorem C9_claim_cex :
    edit_file_in_workspace ⟨[], []⟩ (lc "d/f.txt") (lc "x") (lc "y") =
      (⟨[lc "d"], []⟩,
        .error (.matchError (lc "Target file does not exist: d/f.txt"))) ∧
    (⟨[lc "d"], []⟩ : FS) ≠ ⟨[], []⟩ := by
  constructor
  · decide
  · decide

/-- C9 (amended): for an edit whose target does not exist (after the
unconditional parent-directory creation): a search text that is
non-blank raises the MatchError naming the target and no file is created
or modified — but the missing parent directories HAVE been created, so
the filesystem is not untouched; a blank search creates the artifact
with the normalized replace text as its content, reporting
`changed=true` exactly when that content is non-empty. -/
theorem C9_missing_target (fs : FS) (p search repl : List Char)
    (habsent : fsHas (mkdirParents fs p) p = false) :
    (pyStrip search ≠ [] →
      edit_file_in_workspace fs p search repl =
        (mkdirParents fs p,
          .error (.matchError (lc "Target file does not exist: " ++ p))) ∧
      (mkdirParents fs p).files = fs.files) ∧
    (pyStrip search = [] → pyStrip (strip_wrapping search (some p)) = [] →
      (edit_file_in_workspace fs p search repl).2 =
        .ok (p, decide (strip_wrapping repl (some p) ≠ [])) ∧
      fsRead (edit_file_in_workspace fs p search repl).1 p =
        some (strip_wrapping repl (some p))) := by
  constructor
  · intro hne
    rw [edit_file_in_workspace, if_pos habsent, if_pos hne]
    exact ⟨rfl, rfl⟩
  · intro hs hsn
    have happ : apply_search_replace [] search repl (some p) =
        .ok (strip_wrapping repl (some p)) := by
      rw [apply_search_replace, if_pos hsn]
      simp
    have hbody : edit_file_in_workspace fs p search repl =
        editTail (fsWrite (mkdirParents fs p) p []) p search repl := by
      rw [edit_file_in_workspace, if_pos habsent, if_neg (not_not_intro hs)]
    by_cases hrep : strip_wrapping repl (some p) = []
    · have htail : editTail (fsWrite (mkdirParents fs p) p []) p search repl =
          (fsWrite (mkdirParents fs p) p [], .ok (p, false)) := by
        simp only [editTail, fsRead_fsWrite_self, happ]
        rw [if_neg (not_not_intro hrep)]
      rw [hbody, htail]
      refine ⟨by simp [hrep], ?_⟩
      rw [fsRead_fsWrite_self, hrep]
    · have htail : editTail (fsWrite (mkdirParents fs p) p []) p search repl =
          (fsWrite (fsWrite (mkdirParents fs p) p []) p (strip_wrapping repl (some p)),
            .ok (p, true)) := by
        simp only [editTail, fsRead_fsWrite_self, happ]
        rw [if_pos hrep]
      rw [hbody, htail]
      refine ⟨by simp [hrep], ?_⟩
      rw [fsRead_fsWrite_self]

/-- C9 witness: the missing-target MatchError on `d/f.txt` leaves the
files untouched (though `d` is created), and a blank search on the
missing `f.txt` creates it with content `X` plus a newline, reported as
changed. -/
theorem C9_missing_target_witness :
    (edit_file_in_workspace ⟨[], []⟩ (lc "d/f.txt") (lc "x") (lc "y") =
      (mkdirParents ⟨[], []⟩ (lc "d/f.txt"),
        .error (.matchError (lc "Target file does not exist: " ++ lc "d/f.txt"))) ∧
     (mkdirParents (⟨[], []⟩ : FS) (lc "d/f.txt")).files = ([] : List (List Char × List Char))) ∧
    ((edit_file_in_workspace ⟨[], []⟩ (lc "f.txt") (lc "") (lc "X")).2 =
      .ok (lc "f.txt", decide (strip_wrapping (lc "X") (some (lc "f.txt")) ≠ [])) ∧
     fsRead (edit_file_in_workspace ⟨[], []⟩ (lc "f.txt") (lc "") (lc "X")).1 (lc "f.txt") =
      some (strip_wrapping (lc "X") (some (lc "f.txt")))) := by
  constructor
  · exact (C9_missing_target ⟨[], []⟩ (lc "d/f.txt") (lc "x") (lc "y") (by decide)).1
      (by decide)
  · exact (C9_missing_target ⟨[], []⟩ (lc "f.txt") (lc "") (lc "X") (by decide)).2
      (by decide) (by decide)

end RZ
